import Mathlib

/-!
# Verification of the coach extraction-and-normalization pipeline

A shallow embedding, in Lean 4, of the deterministic core of the
`CoachResearchAgent` repository: the response parsers, record validator,
normalizer/deduplicator and concurrent collector found in
`src/agents/extraction.py`, `src/agents/normalization.py`,
`src/agents/verification.py` and `src/main.py`.

Strings are modelled as lists of Unicode code points (`List Nat`), and the
Python string/regex operations used by the code are embedded as executable
functions over them, restricted to their ASCII behaviour (all vocabulary,
labels and separators in the source are ASCII; the two non-ASCII separator
dashes are carried by code point).

Note on the source: `src/agents/extraction.py` as stored has damaged
indentation at two places (the retry loop of `_extract_with_responses_api`,
and the line-by-line fallback inside `_parse_structured_format`), evidently a
paste artifact from overlaying a newer revision; the embedding follows the
evident intended block structure (the fallback loop runs under
`if not coach_data:`, with field assignment inside `if len(parts) == 2:`).
-/

/-- Strings as lists of Unicode code points. -/
abbrev Str := List Nat

/-- Code points of a Lean string literal, used to transcribe the Python
literals appearing in the source. -/
def codes (s : String) : Str := s.data.map Char.toNat

/-! ## Character classes (ASCII, as used by Python `str` methods and `re`) -/

/-- Python whitespace for `str.strip`/`str.split` and regex `\s` (ASCII part):
space, tab, newline, vertical tab, form feed, carriage return. -/
def isSpaceN (c : Nat) : Bool :=
  decide (c = 32 ∨ c = 9 ∨ c = 10 ∨ c = 11 ∨ c = 12 ∨ c = 13)

/-- Regex `\d` (ASCII): decimal digits. -/
def isDigitN (c : Nat) : Bool := decide (48 ≤ c ∧ c ≤ 57)

/-- ASCII upper-case letter. -/
def isUpperN (c : Nat) : Bool := decide (65 ≤ c ∧ c ≤ 90)

/-- ASCII lower-case letter. -/
def isLowerN (c : Nat) : Bool := decide (97 ≤ c ∧ c ≤ 122)

/-- ASCII letter (the cased characters relevant to the source's data). -/
def isAlphaN (c : Nat) : Bool := isUpperN c || isLowerN c

/-- ASCII letter or digit. -/
def isAlnumN (c : Nat) : Bool := isAlphaN c || isDigitN c

/-- Regex word character `\w` / the class `[a-zA-Z0-9_]` used for handles. -/
def isWordN (c : Nat) : Bool := isAlnumN c || decide (c = 95)

/-- `str.lower` on one character (ASCII). -/
def lowerN (c : Nat) : Nat := if 65 ≤ c ∧ c ≤ 90 then c + 32 else c

/-- `str.upper` on one character (ASCII). -/
def upperN (c : Nat) : Nat := if 97 ≤ c ∧ c ≤ 122 then c - 32 else c

/-- `str.lower` on a string. -/
def lowerStr (s : Str) : Str := s.map lowerN

/-- `str.upper` on a string. -/
def upperStr (s : Str) : Str := s.map upperN

/-- `str.lstrip` (whitespace). -/
def lstripStr (s : Str) : Str := s.dropWhile isSpaceN

/-- `str.rstrip` (whitespace). -/
def rstripStr (s : Str) : Str := (s.reverse.dropWhile isSpaceN).reverse

/-- Python `str.strip()` with no arguments: drop whitespace from both ends. -/
def pyStrip (s : Str) : Str := rstripStr (lstripStr s)

/-! ## Words: Python `str.split()` with no arguments, and `' '.join` -/

/-- Fuelled scanner for Python `s.split()`; fuel at least the length of the
string makes it total (the fuel only serves structural recursion). -/
def pyWordsF : Nat → Str → List Str
  | 0, _ => []
  | _ + 1, [] => []
  | f + 1, c :: rest =>
    if isSpaceN c then pyWordsF f rest
    else
      (c :: rest.takeWhile (fun d => !isSpaceN d)) ::
        pyWordsF f (rest.dropWhile (fun d => !isSpaceN d))

/-- Maximal whitespace-free words of a string, in order: Python `s.split()`. -/
def pyWords (s : Str) : List Str := pyWordsF s.length s

/-- The fuel of `pyWordsF` is irrelevant as long as it covers the string. -/
theorem pyWordsF_fuel : ∀ (f g : Nat) (s : Str), s.length ≤ f → s.length ≤ g →
    pyWordsF f s = pyWordsF g s := by
  intro f
  induction f with
  | zero =>
    intro g s hf _
    have : s = [] := List.length_eq_zero.mp (Nat.le_zero.mp hf)
    subst this
    cases g <;> rfl
  | succ f ih =>
    intro g s hf hg
    cases s with
    | nil => cases g <;> rfl
    | cons c rest =>
      cases g with
      | zero => simp at hg
      | succ g =>
        simp only [List.length_cons] at hf hg
        have hd := (List.dropWhile_sublist (l := rest) (fun d => !isSpaceN d)).length_le
        simp only [pyWordsF]
        rw [ih g rest (by omega) (by omega),
          ih g (rest.dropWhile (fun d => !isSpaceN d)) (by omega) (by omega)]

/-- Unfolding: `pyWords` of the empty string. -/
theorem pyWords_nil : pyWords [] = [] := rfl

/-- Unfolding: `pyWords` skips a leading whitespace character. -/
theorem pyWords_cons_space (c : Nat) (rest : Str) (hc : isSpaceN c = true) :
    pyWords (c :: rest) = pyWords rest := by
  unfold pyWords
  simp only [List.length_cons, pyWordsF, hc, if_true]

/-- Unfolding: `pyWords` takes a maximal non-whitespace run as first word. -/
theorem pyWords_cons_word (c : Nat) (rest : Str) (hc : isSpaceN c = false) :
    pyWords (c :: rest) =
      (c :: rest.takeWhile (fun d => !isSpaceN d)) ::
        pyWords (rest.dropWhile (fun d => !isSpaceN d)) := by
  unfold pyWords
  simp only [List.length_cons, pyWordsF, hc, if_false, Bool.false_eq_true]
  have hd := (List.dropWhile_sublist (l := rest) (fun d => !isSpaceN d)).length_le
  rw [pyWordsF_fuel rest.length _ _ (by omega) (Nat.le_refl _)]

/-- `' '.join ws`: words joined by a single space (code point 32). -/
def joinWords : List Str → Str
  | [] => []
  | [w] => w
  | w :: ws => w ++ 32 :: joinWords ws

/-- `' '.join(s.split())`: collapse whitespace runs to single spaces and trim. -/
def pyJoinWords (s : Str) : Str := joinWords (pyWords s)

/-! ## `NormalizationAgent._normalize_twitter` (src/agents/normalization.py) -/

/-- The literal part `twitter.com/` of the profile-URL regex. -/
def twitterComSlash : Str := codes "twitter.com/"

/-- The literal part `x.com/` of the profile-URL regex. -/
def xComSlash : Str := codes "x.com/"

/-- `re.search(r'(?:twitter\.com|x\.com)/([a-zA-Z0-9_]+)', s)`: scan for the
leftmost occurrence of `twitter.com/` or `x.com/` followed by at least one
handle character, and return the maximal handle-character run (group 1). -/
def findTwitterUrlHandle : Str → Option Str
  | [] => none
  | c :: rest =>
    if twitterComSlash.isPrefixOf (c :: rest) then
      let run := ((c :: rest).drop twitterComSlash.length).takeWhile isWordN
      if run = [] then findTwitterUrlHandle rest else some run
    else if xComSlash.isPrefixOf (c :: rest) then
      let run := ((c :: rest).drop xComSlash.length).takeWhile isWordN
      if run = [] then findTwitterUrlHandle rest else some run
    else findTwitterUrlHandle rest

/-- `re.search(r'@?([a-zA-Z0-9_]+)', s)`: group 1 of the leftmost match — the
first maximal run of handle characters, optionally preceded by `@` (64). -/
def findBareHandle : Str → Option Str
  | [] => none
  | c :: rest =>
    if c = 64 then
      let run := rest.takeWhile isWordN
      if run = [] then findBareHandle rest else some run
    else if isWordN c then some ((c :: rest).takeWhile isWordN)
    else findBareHandle rest

/-- The canonical profile-URL stem `https://twitter.com/`. -/
def twitterStem : Str := codes "https://twitter.com/"

/-- `NormalizationAgent._normalize_twitter`: extract a handle from a
`twitter.com`/`x.com` URL (any non-empty handle), else from the first
`@handle`/bare token (accepted only when 3–15 handle characters), lower-case
it, and emit `https://twitter.com/<handle>`; otherwise the empty string. -/
def normalizeTwitter (t : Str) : Str :=
  if t = [] then [] else
  let t := pyStrip t
  match findTwitterUrlHandle t with
  | some run => twitterStem ++ lowerStr run
  | none =>
    match findBareHandle t with
    | some run =>
      let handle := lowerStr run
      if 3 ≤ handle.length ∧ handle.length ≤ 15 ∧ handle.all isWordN then
        twitterStem ++ handle
      else []
    | none => []

example : normalizeTwitter (codes "@Coach_Smith") = codes "https://twitter.com/coach_smith" := by decide
example : normalizeTwitter (codes "https://x.com/Coach_Smith") = codes "https://twitter.com/coach_smith" := by decide
example : normalizeTwitter (codes "facebook.com/coachsmith") = codes "https://twitter.com/facebook" := by decide

/-! ## `NormalizationAgent._normalize_name` -/

/-- Python `str.isupper()` (ASCII): at least one cased character and no
lower-case cased character. -/
def isUpperPy (s : Str) : Bool := s.any isAlphaN && s.all (fun c => !isLowerN c)

/-- One step of Python `str.title()` (ASCII): upper-case a letter whose
predecessor is not a letter, lower-case other letters; `prevAlpha` records
whether the previous character was a letter. -/
def pyTitleAux (prevAlpha : Bool) : Str → Str
  | [] => []
  | c :: rest =>
    (if isAlphaN c then (if prevAlpha then lowerN c else upperN c) else c) ::
      pyTitleAux (isAlphaN c) rest

/-- Python `str.title()` (ASCII). -/
def pyTitle (s : Str) : Str := pyTitleAux false s

/-- One of the name-particle fix-ups of `_normalize_name`:
`re.sub(r'\b<pat>([A-Z])', r'<pat>\1', name)` — the replacement text equals
the matched text, so the scan re-emits exactly what it consumed.  `prevW`
records whether the previous character is a word character (for `\b`). -/
def fixParticleF (pat : Str) : Nat → Bool → Str → Str
  | 0, _, s => s
  | _ + 1, _, [] => []
  | f + 1, prevW, c :: rest =>
    if !prevW && pat.isPrefixOf (c :: rest) then
      match (c :: rest).drop pat.length with
      | d :: rest2 =>
        if isUpperN d then pat ++ d :: fixParticleF pat f true rest2
        else c :: fixParticleF pat f (isWordN c) rest
      | [] => c :: fixParticleF pat f (isWordN c) rest
    else c :: fixParticleF pat f (isWordN c) rest

/-- Apply one particle fix-up from the start of the string (word boundary
holds at position 0). -/
def fixParticle (pat : Str) (s : Str) : Str := fixParticleF pat s.length false s

/-- `NormalizationAgent._normalize_name`: strip, title-case (the all-caps
branch and the default branch of the source both call `str.title()`), then
the five particle fix-up substitutions (`Mc`, `Mac`, `O` followed by an
apostrophe (39), `De `, `Van `), whose replacement equals the match. -/
def normalizeName (n : Str) : Str :=
  if n = [] then [] else
  let n := pyStrip n
  let n := if isUpperPy n ∧ 1 < n.length then pyTitle n else pyTitle n
  let n := fixParticle (codes "Mc") n
  let n := fixParticle (codes "Mac") n
  let n := fixParticle (codes "O" ++ [39]) n
  let n := fixParticle (codes "De ") n
  let n := fixParticle (codes "Van ") n
  n

/-! ## `NormalizationAgent._normalize_position` -/

/-- The leading-qualifier alternatives of
`re.sub(r'^(assistant|associate|head|volunteer|graduate)\s+', r'\1 ', ...)`. -/
def qualifierWords : List Str :=
  [codes "assistant", codes "associate", codes "head", codes "volunteer", codes "graduate"]

/-- Case-insensitive literal prefix test (the source compiles its patterns
with `re.IGNORECASE`; the pattern literals are lower-case ASCII). -/
def ciHasPref (pat s : Str) : Bool := lowerStr (s.take pat.length) == pat

/-- Leading qualifier of the position string, with at least one following
whitespace character (the regex requires `\s+` after the alternative). -/
def findLeadQual (s : Str) : Option Nat :=
  qualifierWords.findSome? fun q =>
    if ciHasPref q s ∧ (s.drop q.length).takeWhile isSpaceN ≠ [] then some q.length
    else none

/-- `re.sub(r'^(assistant|associate|head|volunteer|graduate)\s+', r'\1 ', s,
flags=re.IGNORECASE)`: collapse the whitespace run after a leading qualifier
word to a single space (the captured word is kept verbatim). -/
def collapseLeadQual (s : Str) : Str :=
  match findLeadQual s with
  | some k =>
    let rest := s.drop k
    s.take k ++ 32 :: rest.drop (rest.takeWhile isSpaceN).length
  | none => s

/-- The trailing-role alternatives of
`re.sub(r'\s+(coach|manager|coordinator|director)$', r' \1', ...)`. -/
def roleWords : List Str :=
  [codes "coach", codes "manager", codes "coordinator", codes "director"]

/-- Trailing role word of the position string, preceded by at least one
whitespace character (the regex requires `\s+` before the alternative). -/
def findTrailRole (s : Str) : Option Nat :=
  roleWords.findSome? fun r =>
    if (lowerStr (s.drop (s.length - r.length)) == r) && decide (r.length < s.length) &&
        (match (s.take (s.length - r.length)).reverse with
         | c :: _ => isSpaceN c
         | [] => false) then
      some r.length
    else none

/-- `re.sub(r'\s+(coach|manager|coordinator|director)$', r' \1', s,
flags=re.IGNORECASE)`: collapse the whitespace run before a trailing role
word to a single space (leftmost match consumes the maximal run). -/
def collapseTrailRole (s : Str) : Str :=
  match findTrailRole s with
  | some k => rstripStr (s.take (s.length - k)) ++ 32 :: s.drop (s.length - k)
  | none => s

/-- Python `str.capitalize()` (ASCII): upper-case the first character,
lower-case the rest. -/
def pyCapitalize : Str → Str
  | [] => []
  | c :: rest => upperN c :: lowerStr rest

/-- `' '.join(word.capitalize() for word in position.split())`. -/
def capJoin (s : Str) : Str := joinWords ((pyWords s).map pyCapitalize)

/-- Word-boundary case-insensitive substitution
`re.sub(r'\b<pat>\b', rep, s, flags=re.IGNORECASE)` for a pattern of word
characters: scan left to right tracking whether the previous original
character is a word character, and on a boundary-delimited case-insensitive
occurrence of `pat` emit `rep` and continue after the match. -/
def subWordCIF (pat rep : Str) : Nat → Bool → Str → Str
  | 0, _, s => s
  | _ + 1, _, [] => []
  | f + 1, prevW, c :: rest =>
    if !prevW && ciHasPref pat (c :: rest) &&
        (match (c :: rest).drop pat.length with
         | [] => true
         | d :: _ => !isWordN d) then
      rep ++ subWordCIF pat rep f true ((c :: rest).drop pat.length)
    else c :: subWordCIF pat rep f (isWordN c) rest

/-- One whole-word case-insensitive substitution over the whole string. -/
def subWordCI (pat rep s : Str) : Str := subWordCIF pat rep s.length false s

/-- `NormalizationAgent._normalize_position`: strip; collapse whitespace after
a leading qualifier and before a trailing role word; capitalize each
whitespace-delimited word and join with single spaces; then expand the
whole-word abbreviations `Asst`→`Assistant`, `Assoc`→`Associate`,
`Hc`→`Head Coach` (case-insensitively). -/
def normalizePosition (p : Str) : Str :=
  if p = [] then [] else
  let p := pyStrip p
  let p := collapseLeadQual p
  let p := collapseTrailRole p
  let p := capJoin p
  let p := subWordCI (codes "asst") (codes "Assistant") p
  let p := subWordCI (codes "assoc") (codes "Associate") p
  let p := subWordCI (codes "hc") (codes "Head Coach") p
  p

/-! ## `NormalizationAgent._normalize_email` and `_normalize_phone` -/

/-- Remove one leading `mailto:` (applied to an already lower-cased string in
the source, so the case-sensitive `re.sub(r'^mailto:', '', ...)` is a plain
prefix removal). -/
def dropMailto (e : Str) : Str :=
  if (codes "mailto:").isPrefixOf e then e.drop 7 else e

/-- The segment of `e` between the first `@` (64) and the next `@` or the
end: Python `email.split('@')[1]`. -/
def afterFirstAt (e : Str) : Str :=
  (((e.dropWhile (fun c => c ≠ 64)).drop 1).takeWhile (fun c => c ≠ 64))

/-- `NormalizationAgent._normalize_email`: strip and lower-case, remove one
leading `mailto:`, and keep the result only if it contains `@` with a `.`
somewhere in the segment after the first `@`; otherwise the empty string. -/
def normalizeEmail (e : Str) : Str :=
  if e = [] then [] else
  let e := dropMailto (lowerStr (pyStrip e))
  if 64 ∈ e ∧ 46 ∈ afterFirstAt e then e else []

/-- Remove one leading `tel:`/`phone:`/`p:` label, case-insensitively
(`re.sub(r'^(tel:|phone:|p:)', '', phone, flags=re.IGNORECASE)`; the
alternatives are tried in order). -/
def dropPhoneLabel (s : Str) : Str :=
  if ciHasPref (codes "tel:") s then s.drop 4
  else if ciHasPref (codes "phone:") s then s.drop 6
  else if ciHasPref (codes "p:") s then s.drop 2
  else s

/-- The character class kept by `re.sub(r'[^\d\s()\-+.x]', '', phone)`:
digits, whitespace, parentheses, hyphen, plus, period, and lower-case `x`. -/
def isPhoneChar (c : Nat) : Bool :=
  isDigitN c || isSpaceN c ||
    decide (c = 40 ∨ c = 41 ∨ c = 45 ∨ c = 43 ∨ c = 46 ∨ c = 120)

/-- `NormalizationAgent._normalize_phone`: strip, remove one label prefix,
keep only the phone character class, collapse whitespace runs to single
spaces (`' '.join(phone.split())`), and strip again. -/
def normalizePhone (p : Str) : Str :=
  if p = [] then [] else
  let p := dropPhoneLabel (pyStrip p)
  let p := p.filter isPhoneChar
  pyStrip (pyJoinWords p)

/-! ## Coach records and `NormalizationAgent.normalize_coaches` -/

/-- A coach dictionary: each field is present (`some`) or absent (`none`),
mirroring the Python `dict` where a key may be missing.  `dict.get(k, '')`
is `(·.getD [])` on the corresponding field. -/
structure RawCoach where
  name : Option Str
  position : Option Str
  email : Option Str
  phone : Option Str
  twitter : Option Str
  source_url : Option Str
deriving DecidableEq, Repr

/-- `dict.get(key, '')`. -/
def dget (o : Option Str) : Str := o.getD []

/-- The all-absent dictionary `{}`. -/
def emptyRaw : RawCoach := ⟨none, none, none, none, none, none⟩

/-- `NormalizationAgent._normalize_coach`: normalize each field; the result
always carries all six keys. -/
def normalizeCoach (c : RawCoach) : RawCoach where
  name := some (normalizeName (dget c.name))
  position := some (normalizePosition (dget c.position))
  email := some (normalizeEmail (dget c.email))
  phone := some (normalizePhone (dget c.phone))
  twitter := some (normalizeTwitter (dget c.twitter))
  source_url := some (dget c.source_url)

/-- The duplicate-suppression key of `normalize_coaches`:
`(name.lower(), position.lower())` of the normalized record. -/
def keyOf (c : RawCoach) : Str × Str :=
  (lowerStr (dget c.name), lowerStr (dget c.position))

/-- The loop of `NormalizationAgent.normalize_coaches`: normalize each
record, skip records whose key was already seen, and stop once 15 records
are kept. -/
def normCoachesAux : List RawCoach → List (Str × Str) → List RawCoach → List RawCoach
  | [], _, acc => acc.reverse
  | c :: rest, seen, acc =>
    let n := normalizeCoach c
    if keyOf n ∈ seen then normCoachesAux rest seen acc
    else
      if 15 ≤ acc.length + 1 then (n :: acc).reverse
      else normCoachesAux rest (keyOf n :: seen) (n :: acc)

/-- `NormalizationAgent.normalize_coaches`. -/
def normalizeCoaches (cs : List RawCoach) : List RawCoach :=
  if cs = [] then [] else normCoachesAux cs [] []

/-- First-occurrence deduplication by key, with no cap: the specification
function used to reason about `normCoachesAux`. -/
def dedupFirst : List RawCoach → List (Str × Str) → List RawCoach
  | [], _ => []
  | c :: rest, seen =>
    let n := normalizeCoach c
    if keyOf n ∈ seen then dedupFirst rest seen
    else n :: dedupFirst rest (keyOf n :: seen)

/-! ## Elementary lemmas about the character classes and case maps -/

theorem lowerN_lowerN (c : Nat) : lowerN (lowerN c) = lowerN c := by
  unfold lowerN
  split <;> (try split) <;> omega

theorem upperN_upperN (c : Nat) : upperN (upperN c) = upperN c := by
  unfold upperN
  split <;> (try split) <;> omega

theorem lowerN_eq_self (c : Nat) (h : isUpperN c = false) : lowerN c = c := by
  simp only [isUpperN, decide_eq_false_iff_not] at h
  unfold lowerN
  split <;> omega

theorem isUpperN_lowerN (c : Nat) : isUpperN (lowerN c) = false := by
  simp only [isUpperN, lowerN, decide_eq_false_iff_not]
  split <;> omega

theorem isAlphaN_lowerN (c : Nat) : isAlphaN (lowerN c) = isAlphaN c := by
  unfold lowerN
  split
  all_goals rw [Bool.eq_iff_iff]
  all_goals simp only [isAlphaN, isUpperN, isLowerN, Bool.or_eq_true, decide_eq_true_eq]
  all_goals omega

theorem isAlphaN_upperN (c : Nat) : isAlphaN (upperN c) = isAlphaN c := by
  unfold upperN
  split
  all_goals rw [Bool.eq_iff_iff]
  all_goals simp only [isAlphaN, isUpperN, isLowerN, Bool.or_eq_true, decide_eq_true_eq]
  all_goals omega

theorem isSpaceN_of_alpha (c : Nat) (h : isAlphaN c = true) : isSpaceN c = false := by
  simp only [isAlphaN, isUpperN, isLowerN, Bool.or_eq_true, decide_eq_true_eq] at h
  simp only [isSpaceN, decide_eq_false_iff_not]
  omega

theorem isWordN_lowerN (c : Nat) : isWordN (lowerN c) = isWordN c := by
  unfold lowerN
  split
  all_goals rw [Bool.eq_iff_iff]
  all_goals simp only [isWordN, isAlnumN, isAlphaN, isUpperN, isLowerN, isDigitN,
    Bool.or_eq_true, decide_eq_true_eq]
  all_goals omega

theorem isSpaceN_of_word (c : Nat) (h : isWordN c = true) : isSpaceN c = false := by
  simp only [isWordN, isAlnumN, isAlphaN, isUpperN, isLowerN, isDigitN,
    Bool.or_eq_true, decide_eq_true_eq] at h
  simp only [isSpaceN, decide_eq_false_iff_not]
  omega

theorem lowerStr_lowerStr (s : Str) : lowerStr (lowerStr s) = lowerStr s := by
  unfold lowerStr
  rw [List.map_map]
  exact List.map_congr_left (fun c _ => lowerN_lowerN c)

/-! ## Elementary lemmas about stripping -/

theorem dropWhile_dropWhile (p : Nat → Bool) (l : Str) :
    (l.dropWhile p).dropWhile p = l.dropWhile p := by
  induction l with
  | nil => rfl
  | cons c rest ih =>
    rw [List.dropWhile_cons]
    by_cases h : p c = true
    · rw [if_pos h]
      exact ih
    · rw [if_neg h, List.dropWhile_cons, if_neg h]

/-- `lstrip` leaves a string unchanged iff its first character is not
whitespace. -/
theorem lstripStr_eq_self_iff (l : Str) :
    lstripStr l = l ↔ ∀ c, l.head? = some c → isSpaceN c = false := by
  cases l with
  | nil => simp [lstripStr]
  | cons c rest =>
    unfold lstripStr
    by_cases h : isSpaceN c
    · simp only [List.dropWhile_cons, h, if_true, List.head?_cons]
      constructor
      · intro he
        have := congrArg List.length he
        have hd := (List.dropWhile_sublist (l := rest) isSpaceN).length_le
        simp at this
        omega
      · intro hc
        have := hc c rfl
        rw [h] at this
        cases this
    · simp only [List.dropWhile_cons, h, if_false, List.head?_cons]
      constructor
      · intro _ d hd
        cases hd
        simpa using h
      · intro _
        rfl

/-- `rstrip` leaves a string unchanged iff its last character is not
whitespace. -/
theorem rstripStr_eq_self_iff (l : Str) :
    rstripStr l = l ↔ ∀ c, l.getLast? = some c → isSpaceN c = false := by
  unfold rstripStr
  rw [← List.head?_reverse]
  constructor
  · intro he
    have : l.reverse.dropWhile isSpaceN = l.reverse := by
      have := congrArg List.reverse he
      simpa using this
    exact (lstripStr_eq_self_iff l.reverse).mp this
  · intro hc
    have := (lstripStr_eq_self_iff l.reverse).mpr hc
    unfold lstripStr at this
    rw [this, List.reverse_reverse]

theorem rstripStr_rstripStr (l : Str) : rstripStr (rstripStr l) = rstripStr l := by
  unfold rstripStr
  rw [List.reverse_reverse, dropWhile_dropWhile]

/-- A non-empty prefix of a string shares its first character. -/
theorem head?_of_prefix {x y : Str} (h : x <+: y) (hx : x ≠ []) :
    y.head? = x.head? := by
  obtain ⟨t, ht⟩ := h
  cases x with
  | nil => exact absurd rfl hx
  | cons c rest => rw [← ht]; rfl

/-- `rstrip` of a string is a prefix of it. -/
theorem rstripStr_pref (l : Str) : rstripStr l <+: l := by
  have h := List.dropWhile_suffix (l := l.reverse) isSpaceN
  have := List.IsSuffix.reverse h
  simpa [rstripStr] using this

theorem lstripStr_rstripStr_of (l : Str) (hl : lstripStr l = l) :
    lstripStr (rstripStr l) = rstripStr l := by
  rw [lstripStr_eq_self_iff]
  intro c hc
  have hne : rstripStr l ≠ [] := by
    intro he
    rw [he] at hc
    cases hc
  rw [← head?_of_prefix (rstripStr_pref l) hne] at hc
  exact (lstripStr_eq_self_iff l).mp hl c hc

theorem pyStrip_idem (s : Str) : pyStrip (pyStrip s) = pyStrip s := by
  unfold pyStrip
  rw [lstripStr_rstripStr_of (lstripStr s) (dropWhile_dropWhile isSpaceN s),
    rstripStr_rstripStr]

/-- `pyStrip` is the identity on strings whose two end characters are not
whitespace. -/
theorem pyStrip_eq_self (s : Str)
    (h1 : ∀ c, s.head? = some c → isSpaceN c = false)
    (h2 : ∀ c, s.getLast? = some c → isSpaceN c = false) :
    pyStrip s = s := by
  unfold pyStrip
  rw [(lstripStr_eq_self_iff s).mpr h1, (rstripStr_eq_self_iff s).mpr h2]

/-! ## Words and joins: normal form and roundtrip lemmas -/

theorem takeWhile_append_of_all {p : Nat → Bool} {a b : Str}
    (h : ∀ x ∈ a, p x = true) :
    (a ++ b).takeWhile p = a ++ b.takeWhile p := by
  induction a with
  | nil => rfl
  | cons c rest ih =>
    simp only [List.cons_append, List.takeWhile_cons, h c (by simp), if_true]
    rw [ih (fun x hx => h x (by simp [hx]))]

theorem dropWhile_append_of_all {p : Nat → Bool} {a b : Str}
    (h : ∀ x ∈ a, p x = true) :
    (a ++ b).dropWhile p = b.dropWhile p := by
  induction a with
  | nil => rfl
  | cons c rest ih =>
    simp only [List.cons_append, List.dropWhile_cons, h c (by simp), if_true]
    exact ih (fun x hx => h x (by simp [hx]))

/-- Every word produced by `pyWords` is non-empty and whitespace-free. -/
theorem pyWords_good : ∀ (n : Nat) (s : Str), s.length ≤ n →
    ∀ w ∈ pyWords s, w ≠ [] ∧ ∀ c ∈ w, isSpaceN c = false := by
  intro n
  induction n with
  | zero =>
    intro s hs
    have : s = [] := List.length_eq_zero.mp (Nat.le_zero.mp hs)
    subst this
    simp [pyWords_nil]
  | succ n ih =>
    intro s hs w hw
    cases s with
    | nil => simp [pyWords_nil] at hw
    | cons c rest =>
      simp only [List.length_cons] at hs
      by_cases hc : isSpaceN c = true
      · rw [pyWords_cons_space c rest hc] at hw
        exact ih rest (by omega) w hw
      · rw [pyWords_cons_word c rest (by simpa using hc)] at hw
        rcases List.mem_cons.mp hw with hw | hw
        · subst hw
          refine ⟨by simp, ?_⟩
          intro d hd
          rcases List.mem_cons.mp hd with hd | hd
          · subst hd
            simpa using hc
          · have := List.mem_takeWhile_imp hd
            simpa using this
        · have hlen := (List.dropWhile_sublist (l := rest) (fun d => !isSpaceN d)).length_le
          exact ih (rest.dropWhile (fun d => !isSpaceN d)) (by omega) w hw

/-- `pyWords` of a whitespace-free non-empty word followed by a space. -/
theorem pyWords_word_space (w t : Str) (hne : w ≠ [])
    (hw : ∀ c ∈ w, isSpaceN c = false) :
    pyWords (w ++ 32 :: t) = w :: pyWords t := by
  cases w with
  | nil => exact absurd rfl hne
  | cons c w' =>
    have hc : isSpaceN c = false := hw c (by simp)
    rw [List.cons_append, pyWords_cons_word c (w' ++ 32 :: t) hc]
    have hall : ∀ x ∈ w', (fun d => !isSpaceN d) x = true := by
      intro x hx
      simp [hw x (by simp [hx])]
    rw [takeWhile_append_of_all hall, dropWhile_append_of_all hall]
    rw [List.takeWhile_cons, List.dropWhile_cons]
    simp only [show (!isSpaceN 32) = false by decide, Bool.false_eq_true, if_false,
      List.append_nil]
    rw [pyWords_cons_space 32 t (by decide)]

/-- `pyWords` of a single whitespace-free non-empty word. -/
theorem pyWords_single (w : Str) (hne : w ≠ [])
    (hw : ∀ c ∈ w, isSpaceN c = false) :
    pyWords w = [w] := by
  cases w with
  | nil => exact absurd rfl hne
  | cons c w' =>
    have hc : isSpaceN c = false := hw c (by simp)
    rw [pyWords_cons_word c w' hc]
    have hall : ∀ x ∈ w', (fun d => !isSpaceN d) x = true := by
      intro x hx
      simp [hw x (by simp [hx])]
    rw [List.takeWhile_eq_self_iff.mpr hall]
    have : w'.dropWhile (fun d => !isSpaceN d) = [] := by
      rw [List.dropWhile_eq_nil_iff]
      intro x hx
      exact hall x hx
    rw [this, pyWords_nil]

/-- Splitting inverts joining on lists of good words. -/
theorem pyWords_joinWords (ws : List Str)
    (h : ∀ w ∈ ws, w ≠ [] ∧ ∀ c ∈ w, isSpaceN c = false) :
    pyWords (joinWords ws) = ws := by
  induction ws with
  | nil => exact pyWords_nil
  | cons w ws' ih =>
    cases ws' with
    | nil =>
      exact pyWords_single w (h w (by simp)).1 (h w (by simp)).2
    | cons w2 ws'' =>
      show pyWords (w ++ 32 :: joinWords (w2 :: ws'')) = _
      rw [pyWords_word_space w _ (h w (by simp)).1 (h w (by simp)).2]
      rw [ih (fun x hx => h x (by simp [hx]))]

/-- Whitespace normal form: the string is its own collapsed form. -/
def isNF (s : Str) : Prop := joinWords (pyWords s) = s

instance (s : Str) : Decidable (isNF s) := by
  unfold isNF
  infer_instance

/-- The output of `' '.join(s.split())` is in normal form. -/
theorem isNF_pyJoinWords (s : Str) : isNF (pyJoinWords s) := by
  unfold isNF pyJoinWords
  rw [pyWords_joinWords _ (pyWords_good s.length s (Nat.le_refl _))]

/-- A non-empty join of good words starts with the first word's head. -/
theorem joinWords_head? (w : Str) (ws : List Str) (hne : w ≠ []) :
    (joinWords (w :: ws)).head? = w.head? := by
  cases ws with
  | nil => rfl
  | cons w2 ws' =>
    show (w ++ 32 :: joinWords (w2 :: ws')).head? = w.head?
    cases w with
    | nil => exact absurd rfl hne
    | cons c w' => rfl

/-- A join of good words is non-empty when the word list is. -/
theorem joinWords_ne_nil (w : Str) (ws : List Str) (hne : w ≠ []) :
    joinWords (w :: ws) ≠ [] := by
  cases ws with
  | nil => simpa [joinWords]
  | cons w2 ws' =>
    show w ++ 32 :: joinWords (w2 :: ws') ≠ []
    simp

/-- The last character of a join of good words is not whitespace. -/
theorem joinWords_getLast?_nonspace (ws : List Str)
    (h : ∀ w ∈ ws, w ≠ [] ∧ ∀ c ∈ w, isSpaceN c = false) :
    ∀ c, (joinWords ws).getLast? = some c → isSpaceN c = false := by
  induction ws with
  | nil => intro c hc; cases hc
  | cons w ws' ih =>
    intro c hc
    cases ws' with
    | nil =>
      have : c ∈ w := List.mem_of_mem_getLast? hc
      exact (h w (by simp)).2 c this
    | cons w2 ws'' =>
      have hJ : joinWords (w2 :: ws'') ≠ [] :=
        joinWords_ne_nil w2 ws'' (h w2 (by simp)).1
      have hrw : (joinWords (w :: w2 :: ws'')).getLast? =
          (joinWords (w2 :: ws'')).getLast? := by
        show (w ++ 32 :: joinWords (w2 :: ws'')).getLast? = _
        rw [List.getLast?_append_of_ne_nil _ (by simp)]
        cases hJ2 : joinWords (w2 :: ws'') with
        | nil => exact absurd hJ2 hJ
        | cons d t => rw [List.getLast?_cons_cons]
      rw [hrw] at hc
      exact ih (fun x hx => h x (by simp [hx])) c hc

/-- A string in whitespace normal form is already stripped. -/
theorem pyStrip_of_isNF (s : Str) (h : isNF s) : pyStrip s = s := by
  have hgood := pyWords_good s.length s (Nat.le_refl _)
  unfold isNF at h
  cases hws : pyWords s with
  | nil =>
    rw [hws] at h
    simp only [joinWords] at h
    rw [← h]
    rfl
  | cons w ws' =>
    rw [hws] at h hgood
    apply pyStrip_eq_self
    · intro c hc
      rw [← h, joinWords_head? w ws' (hgood w (by simp)).1] at hc
      have : c ∈ w := by
        cases w with
        | nil => cases hc
        | cons d t =>
          simp only [List.head?_cons, Option.some.injEq] at hc
          simp [← hc]
      exact (hgood w (by simp)).2 c this
    · intro c hc
      rw [← h] at hc
      exact joinWords_getLast?_nonspace (w :: ws') hgood c hc

/-- Collapsing whitespace is idempotent. -/
theorem pyJoinWords_of_isNF (s : Str) (h : isNF s) : pyJoinWords s = s := by
  unfold pyJoinWords
  exact h

/-! ## Idempotence of `_normalize_name`: title casing and particle fix-ups -/

/-- The case map applied by one `str.title()` step preserves letter-hood. -/
theorem pyTitleAux_ne_nil (b : Bool) (l : Str) : pyTitleAux b l = [] ↔ l = [] := by
  cases l <;> simp [pyTitleAux]

/-- `getLast?` ignores a cons onto a non-empty list. -/
theorem getLast?_cons_ne (a : Nat) (l : Str) (h : l ≠ []) :
    (a :: l).getLast? = l.getLast? := by
  cases l with
  | nil => exact absurd rfl h
  | cons b t => rw [List.getLast?_cons_cons]

/-- `str.title()` is idempotent (ASCII). -/
theorem pyTitleAux_idem (l : Str) : ∀ b, pyTitleAux b (pyTitleAux b l) = pyTitleAux b l := by
  induction l with
  | nil => intro b; rfl
  | cons c rest ih =>
    intro b
    by_cases hc : isAlphaN c = true
    · cases b
      · simp only [pyTitleAux, hc, if_true, Bool.false_eq_true, if_false]
        rw [isAlphaN_upperN]
        simp only [hc, if_true]
        rw [upperN_upperN, ih true]
      · simp only [pyTitleAux, hc, if_true]
        rw [isAlphaN_lowerN]
        simp only [hc, if_true]
        rw [lowerN_lowerN, ih true]
    · have hc2 : isAlphaN c = false := by simpa using hc
      simp only [pyTitleAux, hc2, Bool.false_eq_true, if_false]
      rw [ih false]

/-- One title step preserves the head character being non-whitespace. -/
theorem pyTitleAux_head_nonspace (b : Bool) (l : Str)
    (h : ∀ c, l.head? = some c → isSpaceN c = false) :
    ∀ c, (pyTitleAux b l).head? = some c → isSpaceN c = false := by
  cases l with
  | nil => intro c hc; cases hc
  | cons d rest =>
    intro c hc
    have hd := h d rfl
    simp only [pyTitleAux, List.head?_cons, Option.some.injEq] at hc
    subst hc
    by_cases ha : isAlphaN d = true
    · cases b
      · simp only [ha, if_true, Bool.false_eq_true, if_false]
        exact isSpaceN_of_alpha _ (by rw [isAlphaN_upperN]; exact ha)
      · simp only [ha, if_true]
        exact isSpaceN_of_alpha _ (by rw [isAlphaN_lowerN]; exact ha)
    · have ha2 : isAlphaN d = false := by simpa using ha
      simp only [ha2, Bool.false_eq_true, if_false]
      exact hd

/-- One title step preserves the last character being non-whitespace. -/
theorem pyTitleAux_getLast_nonspace (l : Str) :
    ∀ b, (∀ c, l.getLast? = some c → isSpaceN c = false) →
    ∀ c, (pyTitleAux b l).getLast? = some c → isSpaceN c = false := by
  induction l with
  | nil => intro b _ c hc; cases hc
  | cons d rest ih =>
    intro b h c hc
    cases hrest : rest with
    | nil =>
      subst hrest
      have hd := h d rfl
      simp only [pyTitleAux, List.getLast?_singleton, Option.some.injEq] at hc
      subst hc
      by_cases ha : isAlphaN d = true
      · cases b
        · simp only [ha, if_true, Bool.false_eq_true, if_false]
          exact isSpaceN_of_alpha _ (by rw [isAlphaN_upperN]; exact ha)
        · simp only [ha, if_true]
          exact isSpaceN_of_alpha _ (by rw [isAlphaN_lowerN]; exact ha)
      · have ha2 : isAlphaN d = false := by simpa using ha
        simp only [ha2, Bool.false_eq_true, if_false]
        exact hd
    | cons e rest2 =>
      subst hrest
      have hne : pyTitleAux (isAlphaN d) (e :: rest2) ≠ [] := by
        rw [Ne, pyTitleAux_ne_nil]
        simp
      simp only [pyTitleAux] at hc
      rw [show ∀ x y t, (x :: y :: t).getLast? = (y :: t).getLast? from
        fun x y t => List.getLast?_cons_cons] at hc
      rw [show ((if isAlphaN e = true then
            if isAlphaN d = true then lowerN e else upperN e
          else e) :: pyTitleAux (isAlphaN e) rest2) = pyTitleAux (isAlphaN d) (e :: rest2) from rfl] at hc
      refine ih (isAlphaN d) ?_ c hc
      intro x hx
      apply h
      rw [getLast?_cons_ne d (e :: rest2) (by simp)]
      exact hx

/-- The particle fix-ups of `_normalize_name` rewrite each match to itself,
so they are the identity on every string. -/
theorem fixParticleF_id (pat : Str) : ∀ (f : Nat) (b : Bool) (s : Str),
    fixParticleF pat f b s = s := by
  intro f
  induction f with
  | zero => intro b s; rfl
  | succ f ih =>
    intro b s
    cases s with
    | nil => rfl
    | cons c rest =>
      simp only [fixParticleF]
      split
      · rename_i hcond
        split
        · rename_i d rest2 heq
          have hpre : pat <+: (c :: rest) := by
            rw [← List.isPrefixOf_iff_prefix]
            simp only [Bool.and_eq_true] at hcond
            exact hcond.2
          obtain ⟨t, ht⟩ := hpre
          have hteq : t = d :: rest2 := by
            rw [← ht, List.drop_left] at heq
            exact heq
          split
          · rw [ih, ← ht, hteq]
          · rw [ih]
        · rw [ih]
      · rw [ih]

theorem fixParticle_id (pat s : Str) : fixParticle pat s = s :=
  fixParticleF_id pat s.length false s

/-- `_normalize_name` on a non-empty string is title-casing of the strip
(the two branches coincide and the fix-ups are the identity). -/
theorem normalizeName_val (n : Str) (hn : n ≠ []) :
    normalizeName n = pyTitle (pyStrip n) := by
  unfold normalizeName
  rw [if_neg hn]
  simp only [ite_self, fixParticle_id]

/-- The head character of a stripped string is not whitespace. -/
theorem pyStrip_head_nonspace (n : Str) :
    ∀ c, (pyStrip n).head? = some c → isSpaceN c = false := by
  have h1 : lstripStr (pyStrip n) = pyStrip n :=
    lstripStr_rstripStr_of (lstripStr n) (dropWhile_dropWhile isSpaceN n)
  exact (lstripStr_eq_self_iff (pyStrip n)).mp h1

/-- The last character of a stripped string is not whitespace. -/
theorem pyStrip_getLast_nonspace (n : Str) :
    ∀ c, (pyStrip n).getLast? = some c → isSpaceN c = false := by
  have h2 : rstripStr (pyStrip n) = pyStrip n := rstripStr_rstripStr (lstripStr n)
  exact (rstripStr_eq_self_iff (pyStrip n)).mp h2

/-- `_normalize_name` is idempotent. -/
theorem normalizeName_idem (n : Str) :
    normalizeName (normalizeName n) = normalizeName n := by
  by_cases hn : n = []
  · subst hn; rfl
  · rw [normalizeName_val n hn]
    by_cases hm : pyTitle (pyStrip n) = []
    · rw [hm]; rfl
    · rw [normalizeName_val _ hm]
      have hs : pyStrip (pyTitle (pyStrip n)) = pyTitle (pyStrip n) := by
        apply pyStrip_eq_self
        · exact pyTitleAux_head_nonspace false (pyStrip n) (pyStrip_head_nonspace n)
        · exact pyTitleAux_getLast_nonspace (pyStrip n) false (pyStrip_getLast_nonspace n)
      rw [hs]
      exact pyTitleAux_idem (pyStrip n) false

/-! ## Idempotence of `_normalize_phone` -/

/-- Characters of a join are the separator or characters of some word. -/
theorem mem_joinWords (ws : List Str) :
    ∀ c ∈ joinWords ws, c = 32 ∨ ∃ w ∈ ws, c ∈ w := by
  induction ws with
  | nil => intro c hc; cases hc
  | cons w ws' ih =>
    intro c hc
    cases ws' with
    | nil =>
      right
      exact ⟨w, by simp, hc⟩
    | cons w2 ws'' =>
      rcases List.mem_append.mp hc with hcw | hctail
      · right
        exact ⟨w, by simp, hcw⟩
      · rcases List.mem_cons.mp hctail with h32 | hcj
        · left; exact h32
        · rcases ih c hcj with h32 | ⟨w', hw', hcw'⟩
          · left; exact h32
          · right; exact ⟨w', by simp [hw'], hcw'⟩

/-- Characters of the split words come from the string. -/
theorem mem_of_mem_pyWords : ∀ (n : Nat) (s : Str), s.length ≤ n →
    ∀ w ∈ pyWords s, ∀ c ∈ w, c ∈ s := by
  intro n
  induction n with
  | zero =>
    intro s hs
    have : s = [] := List.length_eq_zero.mp (Nat.le_zero.mp hs)
    subst this
    simp [pyWords_nil]
  | succ n ih =>
    intro s hs w hw c hc
    cases s with
    | nil => simp [pyWords_nil] at hw
    | cons a rest =>
      simp only [List.length_cons] at hs
      by_cases ha : isSpaceN a = true
      · rw [pyWords_cons_space a rest ha] at hw
        exact List.mem_cons_of_mem a (ih rest (by omega) w hw c hc)
      · rw [pyWords_cons_word a rest (by simpa using ha)] at hw
        rcases List.mem_cons.mp hw with hw | hw
        · subst hw
          rcases List.mem_cons.mp hc with hc | hc
          · simp [hc]
          · exact List.mem_cons_of_mem a
              ((List.takeWhile_sublist (fun d => !isSpaceN d)).subset hc)
        · have hlen := (List.dropWhile_sublist (l := rest) (fun d => !isSpaceN d)).length_le
          have := ih (rest.dropWhile (fun d => !isSpaceN d)) (by omega) w hw c hc
          exact List.mem_cons_of_mem a
            ((List.dropWhile_sublist (fun d => !isSpaceN d)).subset this)

/-- Characters of `' '.join(s.split())` are spaces or characters of `s`. -/
theorem mem_pyJoinWords (s : Str) : ∀ c ∈ pyJoinWords s, c = 32 ∨ c ∈ s := by
  intro c hc
  rcases mem_joinWords (pyWords s) c hc with h32 | ⟨w, hw, hcw⟩
  · left; exact h32
  · right; exact mem_of_mem_pyWords s.length s (Nat.le_refl _) w hw c hcw

/-- A case-insensitive prefix match imports the pattern's colon. -/
theorem ciHasPref_mem_colon (pat s : Str) (hp : ciHasPref pat s = true)
    (hc : (58 : Nat) ∈ pat) : (58 : Nat) ∈ s := by
  unfold ciHasPref at hp
  rw [beq_iff_eq] at hp
  rw [← hp] at hc
  obtain ⟨c, hcs, hlc⟩ := List.mem_map.mp hc
  have hc58 : c = 58 := by
    unfold lowerN at hlc
    split at hlc <;> omega
  subst hc58
  exact List.mem_of_mem_take hcs

/-- The label stripper does nothing to a string without a colon. -/
theorem dropPhoneLabel_of_no_colon (s : Str) (h : (58 : Nat) ∉ s) :
    dropPhoneLabel s = s := by
  unfold dropPhoneLabel
  rw [if_neg, if_neg, if_neg]
  · intro hp
    exact h (ciHasPref_mem_colon _ s hp (by decide))
  · intro hp
    exact h (ciHasPref_mem_colon _ s hp (by decide))
  · intro hp
    exact h (ciHasPref_mem_colon _ s hp (by decide))

/-- `_normalize_phone` on a non-empty string, with the final strip removed
(the collapsed join is already stripped). -/
theorem normalizePhone_val (p : Str) (hp : p ≠ []) :
    normalizePhone p = pyJoinWords ((dropPhoneLabel (pyStrip p)).filter isPhoneChar) := by
  unfold normalizePhone
  rw [if_neg hp]
  exact pyStrip_of_isNF _ (isNF_pyJoinWords _)

/-- `_normalize_phone` is idempotent. -/
theorem normalizePhone_idem (p : Str) :
    normalizePhone (normalizePhone p) = normalizePhone p := by
  by_cases hp : p = []
  · subst hp; rfl
  · rw [normalizePhone_val p hp]
    by_cases ho : pyJoinWords ((dropPhoneLabel (pyStrip p)).filter isPhoneChar) = []
    · rw [ho]; rfl
    · have hmem : ∀ c ∈ pyJoinWords ((dropPhoneLabel (pyStrip p)).filter isPhoneChar),
          isPhoneChar c = true := by
        intro c hc
        rcases mem_pyJoinWords _ c hc with h32 | hmem
        · subst h32; decide
        · exact List.of_mem_filter hmem
      have hnc : (58 : Nat) ∉ pyJoinWords ((dropPhoneLabel (pyStrip p)).filter isPhoneChar) := by
        intro h58
        have := hmem 58 h58
        simp [isPhoneChar, isDigitN, isSpaceN] at this
      rw [normalizePhone_val _ ho]
      rw [pyStrip_of_isNF _ (isNF_pyJoinWords _), dropPhoneLabel_of_no_colon _ hnc,
        List.filter_eq_self.mpr hmem]
      exact pyJoinWords_of_isNF _ (isNF_pyJoinWords _)

/-! ## Conditional idempotence of `_normalize_email` -/

/-- `_normalize_email`, with its let-bindings expanded. -/
theorem normalizeEmail_eval (e : Str) :
    normalizeEmail e =
      if e = [] then []
      else if 64 ∈ dropMailto (lowerStr (pyStrip e)) ∧
          46 ∈ afterFirstAt (dropMailto (lowerStr (pyStrip e))) then
        dropMailto (lowerStr (pyStrip e))
      else [] := rfl

/-- Lower-casing is the identity on strings with no upper-case letter. -/
theorem lowerStr_eq_self (s : Str) (h : ∀ c ∈ s, isUpperN c = false) :
    lowerStr s = s := by
  unfold lowerStr
  rw [List.map_congr_left (g := id) (fun c hc => lowerN_eq_self c (h c hc))]
  exact List.map_id s

/-- Lower-casing fixes the value of `_normalize_email`. -/
theorem lowerStr_normalizeEmail (e : Str) :
    lowerStr (normalizeEmail e) = normalizeEmail e := by
  rw [normalizeEmail_eval]
  split
  · rfl
  · split
    · unfold dropMailto
      split
      · apply lowerStr_eq_self
        intro c hc
        have hmem : c ∈ lowerStr (pyStrip e) := List.mem_of_mem_drop hc
        obtain ⟨d, _, hd⟩ := List.mem_map.mp hmem
        rw [← hd]
        exact isUpperN_lowerN d
      · exact lowerStr_lowerStr _
    · rfl

/-- The membership test of `_normalize_email` holds of its non-empty output. -/
theorem normalizeEmail_check (e : Str) (ho : normalizeEmail e ≠ []) :
    64 ∈ normalizeEmail e ∧ 46 ∈ afterFirstAt (normalizeEmail e) := by
  by_cases he : e = []
  · subst he
    exact absurd rfl ho
  · rw [normalizeEmail_eval, if_neg he] at ho ⊢
    by_cases hcond : 64 ∈ dropMailto (lowerStr (pyStrip e)) ∧
        46 ∈ afterFirstAt (dropMailto (lowerStr (pyStrip e)))
    · rw [if_pos hcond]
      exact hcond
    · rw [if_neg hcond] at ho
      exact absurd rfl ho

/-- `_normalize_email` is idempotent whenever its output neither retains a
`mailto:` prefix nor carries surrounding whitespace. -/
theorem normalizeEmail_idem_of (e : Str)
    (h1 : (codes "mailto:").isPrefixOf (normalizeEmail e) = false)
    (h2 : pyStrip (normalizeEmail e) = normalizeEmail e) :
    normalizeEmail (normalizeEmail e) = normalizeEmail e := by
  by_cases ho : normalizeEmail e = []
  · rw [ho]; rfl
  · have hcheck := normalizeEmail_check e ho
    have hdm : dropMailto (normalizeEmail e) = normalizeEmail e := by
      unfold dropMailto
      rw [if_neg (by rw [h1]; intro hcontra; cases hcontra)]
    rw [normalizeEmail_eval (normalizeEmail e), if_neg ho, h2, lowerStr_normalizeEmail, hdm,
      if_pos hcheck]

/-! ## Shape and idempotence of `_normalize_twitter` -/

/-- `_normalize_twitter`, with its let-bindings expanded. -/
theorem normalizeTwitter_eval (t : Str) :
    normalizeTwitter t =
      if t = [] then []
      else
        match findTwitterUrlHandle (pyStrip t) with
        | some run => twitterStem ++ lowerStr run
        | none =>
          match findBareHandle (pyStrip t) with
          | some run =>
            if 3 ≤ (lowerStr run).length ∧ (lowerStr run).length ≤ 15 ∧
                (lowerStr run).all isWordN then
              twitterStem ++ lowerStr run
            else []
          | none => [] := rfl

/-- A URL-extracted handle is a non-empty run of handle characters. -/
theorem findTwitterUrlHandle_some : ∀ (s run : Str),
    findTwitterUrlHandle s = some run → run ≠ [] ∧ ∀ c ∈ run, isWordN c = true := by
  intro s
  induction s with
  | nil => intro run h; cases h
  | cons c rest ih =>
    intro run h
    simp only [findTwitterUrlHandle] at h
    split at h
    · split at h
      · exact ih run h
      · rename_i hrun
        rw [Option.some.injEq] at h
        subst h
        exact ⟨hrun, fun x hx => List.mem_takeWhile_imp hx⟩
    · split at h
      · split at h
        · exact ih run h
        · rename_i hrun
          rw [Option.some.injEq] at h
          subst h
          exact ⟨hrun, fun x hx => List.mem_takeWhile_imp hx⟩
      · exact ih run h

/-- A bare-token handle is a non-empty run of handle characters. -/
theorem findBareHandle_some : ∀ (s run : Str),
    findBareHandle s = some run → run ≠ [] ∧ ∀ c ∈ run, isWordN c = true := by
  intro s
  induction s with
  | nil => intro run h; cases h
  | cons c rest ih =>
    intro run h
    simp only [findBareHandle] at h
    split at h
    · split at h
      · exact ih run h
      · rename_i hrun
        rw [Option.some.injEq] at h
        subst h
        exact ⟨hrun, fun x hx => List.mem_takeWhile_imp hx⟩
    · split at h
      · rename_i hword
        rw [Option.some.injEq] at h
        subst h
        refine ⟨?_, fun x hx => List.mem_takeWhile_imp hx⟩
        simp [List.takeWhile_cons, hword]
      · exact ih run h

/-- Every non-empty output of `_normalize_twitter` is the canonical stem
followed by a non-empty, lower-case, handle-character run. -/
theorem normalizeTwitter_shape (t : Str) :
    normalizeTwitter t = [] ∨
      ∃ h, normalizeTwitter t = twitterStem ++ h ∧ h ≠ [] ∧
        (∀ c ∈ h, isWordN c = true) ∧ (∀ c ∈ h, isUpperN c = false) := by
  rw [normalizeTwitter_eval]
  split
  · left; rfl
  · split
    · rename_i run hrun
      right
      obtain ⟨hne, hword⟩ := findTwitterUrlHandle_some _ run hrun
      refine ⟨lowerStr run, rfl, by simpa [lowerStr] using hne, ?_, ?_⟩
      · intro c hc
        obtain ⟨d, hd, hdc⟩ := List.mem_map.mp hc
        rw [← hdc, isWordN_lowerN]
        exact hword d hd
      · intro c hc
        obtain ⟨d, _, hdc⟩ := List.mem_map.mp hc
        rw [← hdc]
        exact isUpperN_lowerN d
    · split
      · rename_i run hrun
        split
        · right
          obtain ⟨hne, hword⟩ := findBareHandle_some _ run hrun
          refine ⟨lowerStr run, rfl, by simpa [lowerStr] using hne, ?_, ?_⟩
          · intro c hc
            obtain ⟨d, hd, hdc⟩ := List.mem_map.mp hc
            rw [← hdc, isWordN_lowerN]
            exact hword d hd
          · intro c hc
            obtain ⟨d, _, hdc⟩ := List.mem_map.mp hc
            rw [← hdc]
            exact isUpperN_lowerN d
        · left; rfl
      · left; rfl

theorem twitterComSlash_eq : twitterComSlash = 116 :: codes "witter.com/" := by decide

theorem xComSlash_eq : xComSlash = 120 :: codes ".com/" := by decide

/-- The URL scan advances over a character that starts neither alternative. -/
theorem findUrl_step1 (c : Nat) (rest : Str) (h1 : c ≠ 116) (h2 : c ≠ 120) :
    findTwitterUrlHandle (c :: rest) = findTwitterUrlHandle rest := by
  have ht : twitterComSlash.isPrefixOf (c :: rest) = false := by
    rw [twitterComSlash_eq]
    simp [List.isPrefixOf, beq_iff_eq, Ne.symm h1]
  have hx : xComSlash.isPrefixOf (c :: rest) = false := by
    rw [xComSlash_eq]
    simp [List.isPrefixOf, beq_iff_eq, Ne.symm h2]
  simp only [findTwitterUrlHandle, ht, hx, Bool.false_eq_true, if_false]

/-- The URL scan advances over `t` not followed by `w`. -/
theorem findUrl_step2 (d : Nat) (rest : Str) (hd : d ≠ 119) :
    findTwitterUrlHandle (116 :: d :: rest) = findTwitterUrlHandle (d :: rest) := by
  have ht : twitterComSlash.isPrefixOf (116 :: d :: rest) = false := by
    rw [twitterComSlash_eq, show codes "witter.com/" = 119 :: codes "itter.com/" from by decide]
    simp [List.isPrefixOf, beq_iff_eq, Ne.symm hd]
  have hx : xComSlash.isPrefixOf (116 :: d :: rest) = false := by
    rw [xComSlash_eq]
    simp [List.isPrefixOf]
  simp only [findTwitterUrlHandle, ht, hx, Bool.false_eq_true, if_false]

/-- The URL scan matches at `twitter.com/` followed by a handle run. -/
theorem findUrl_at_pat (h : Str) (hne : h ≠ []) (hall : ∀ c ∈ h, isWordN c = true) :
    findTwitterUrlHandle (twitterComSlash ++ h) = some h := by
  have hpre : twitterComSlash.isPrefixOf (twitterComSlash ++ h) = true := by
    rw [List.isPrefixOf_iff_prefix]
    exact ⟨h, rfl⟩
  obtain ⟨c, rest, hcr⟩ : ∃ c rest, twitterComSlash ++ h = c :: rest := by
    rw [twitterComSlash_eq]
    exact ⟨116, _, rfl⟩
  rw [hcr]
  simp only [findTwitterUrlHandle]
  rw [← hcr, hpre]
  simp only [if_true, List.drop_left]
  rw [List.takeWhile_eq_self_iff.mpr (fun x hx => hall x hx), if_neg hne]

/-- The URL scan on a canonical output finds exactly its handle. -/
theorem findUrl_stem (h : Str) (hne : h ≠ []) (hall : ∀ c ∈ h, isWordN c = true) :
    findTwitterUrlHandle (twitterStem ++ h) = some h := by
  rw [show twitterStem ++ h =
      104 :: 116 :: 116 :: 112 :: 115 :: 58 :: 47 :: 47 :: (twitterComSlash ++ h) from by
    rw [show twitterStem = [104, 116, 116, 112, 115, 58, 47, 47] ++ twitterComSlash from by decide]
    simp]
  rw [findUrl_step1 104 _ (by decide) (by decide)]
  rw [findUrl_step2 116 _ (by decide)]
  rw [findUrl_step2 112 _ (by decide)]
  rw [findUrl_step1 112 _ (by decide) (by decide)]
  rw [findUrl_step1 115 _ (by decide) (by decide)]
  rw [findUrl_step1 58 _ (by decide) (by decide)]
  rw [findUrl_step1 47 _ (by decide) (by decide)]
  rw [findUrl_step1 47 _ (by decide) (by decide)]
  exact findUrl_at_pat h hne hall

/-- `_normalize_twitter` is idempotent. -/
theorem normalizeTwitter_idem (t : Str) :
    normalizeTwitter (normalizeTwitter t) = normalizeTwitter t := by
  rcases normalizeTwitter_shape t with h0 | ⟨h, heq, hne, hword, hup⟩
  · rw [h0]; rfl
  · rw [heq]
    have hcons : twitterStem ++ h = 104 :: (codes "ttps://twitter.com/" ++ h) := by
      rw [show twitterStem = 104 :: codes "ttps://twitter.com/" from by decide]
      rfl
    have hstrip : pyStrip (twitterStem ++ h) = twitterStem ++ h := by
      apply pyStrip_eq_self
      · intro c hc
        rw [hcons] at hc
        simp only [List.head?_cons, Option.some.injEq] at hc
        rw [← hc]
        decide
      · intro c hc
        rw [List.getLast?_append_of_ne_nil _ hne] at hc
        exact isSpaceN_of_word c (hword c (List.mem_of_mem_getLast? hc))
    rw [normalizeTwitter_eval]
    rw [if_neg (by rw [hcons]; simp)]
    rw [hstrip, findUrl_stem h hne hword]
    show twitterStem ++ lowerStr h = twitterStem ++ h
    rw [lowerStr_eq_self h hup]

/-! ## Conditional idempotence of `_normalize_position` -/

/-- `_normalize_position`, with its let-bindings expanded. -/
theorem normalizePosition_eval (p : Str) :
    normalizePosition p =
      if p = [] then []
      else subWordCI (codes "hc") (codes "Head Coach")
        (subWordCI (codes "assoc") (codes "Associate")
          (subWordCI (codes "asst") (codes "Assistant")
            (capJoin (collapseTrailRole (collapseLeadQual (pyStrip p)))))) := rfl

/-- Re-capitalizing is the identity on a normal-form string whose words are
already capitalization-fixed. -/
theorem capJoin_of_isNF (s : Str) (h : isNF s)
    (hcap : ∀ w ∈ pyWords s, pyCapitalize w = w) : capJoin s = s := by
  unfold capJoin
  rw [List.map_congr_left (g := id) (fun w hw => hcap w hw), List.map_id]
  exact h

/-- `_normalize_position` fixes any string in whitespace normal form whose
words are capitalization-fixed and on which the qualifier-collapse,
role-collapse and abbreviation-expansion rewrites make no change. -/
theorem normalizePosition_idem_of (s : Str)
    (hNF : isNF s) (hcap : ∀ w ∈ pyWords s, pyCapitalize w = w)
    (h1 : collapseLeadQual s = s) (h2 : collapseTrailRole s = s)
    (h3 : subWordCI (codes "asst") (codes "Assistant") s = s)
    (h4 : subWordCI (codes "assoc") (codes "Associate") s = s)
    (h5 : subWordCI (codes "hc") (codes "Head Coach") s = s) :
    normalizePosition s = s := by
  rw [normalizePosition_eval]
  by_cases hs : s = []
  · rw [if_pos hs, hs]
  · rw [if_neg hs, pyStrip_of_isNF s hNF, h1, h2, capJoin_of_isNF s hNF hcap, h3, h4, h5]

/-! ## Record-level idempotence of `_normalize_coach` -/

/-- `dict.get` on a present key. -/
theorem dget_some (x : Str) : dget (some x) = x := rfl

/-- A second pass of `_normalize_coach` is the identity, provided the
once-normalized email retains no `mailto:` prefix and no surrounding
whitespace, and the once-normalized position is in whitespace normal form
with capitalization-fixed words, fixed by the qualifier/role collapses and
by the abbreviation expansions.  (Name, phone, twitter and source fields
are unconditional fixed points.) -/
theorem normalizeCoach_idem_of (c : RawCoach)
    (he1 : (codes "mailto:").isPrefixOf (normalizeEmail (dget c.email)) = false)
    (he2 : pyStrip (normalizeEmail (dget c.email)) = normalizeEmail (dget c.email))
    (hpNF : isNF (normalizePosition (dget c.position)))
    (hpcap : ∀ w ∈ pyWords (normalizePosition (dget c.position)), pyCapitalize w = w)
    (hp1 : collapseLeadQual (normalizePosition (dget c.position)) =
      normalizePosition (dget c.position))
    (hp2 : collapseTrailRole (normalizePosition (dget c.position)) =
      normalizePosition (dget c.position))
    (hp3 : subWordCI (codes "asst") (codes "Assistant")
      (normalizePosition (dget c.position)) = normalizePosition (dget c.position))
    (hp4 : subWordCI (codes "assoc") (codes "Associate")
      (normalizePosition (dget c.position)) = normalizePosition (dget c.position))
    (hp5 : subWordCI (codes "hc") (codes "Head Coach")
      (normalizePosition (dget c.position)) = normalizePosition (dget c.position)) :
    normalizeCoach (normalizeCoach c) = normalizeCoach c := by
  unfold normalizeCoach
  simp only [dget_some]
  rw [normalizeName_idem, normalizeEmail_idem_of _ he1 he2, normalizePhone_idem,
    normalizeTwitter_idem,
    normalizePosition_idem_of _ hpNF hpcap hp1 hp2 hp3 hp4 hp5]

/-! ## `normalize_coaches`: deduplication and cap -/

/-- The capped loop equals first-occurrence dedup truncated to the room left
under the cap of 15. -/
theorem normCoachesAux_eq (cs : List RawCoach) :
    ∀ (seen : List (Str × Str)) (acc : List RawCoach), acc.length < 15 →
    normCoachesAux cs seen acc =
      acc.reverse ++ (dedupFirst cs seen).take (15 - acc.length) := by
  induction cs with
  | nil =>
    intro seen acc _
    simp [normCoachesAux, dedupFirst]
  | cons c rest ih =>
    intro seen acc hacc
    simp only [normCoachesAux, dedupFirst]
    by_cases hk : keyOf (normalizeCoach c) ∈ seen
    · rw [if_pos hk, if_pos hk]
      exact ih seen acc hacc
    · rw [if_neg hk, if_neg hk]
      by_cases hlen : 15 ≤ acc.length + 1
      · rw [if_pos hlen]
        rw [show 15 - acc.length = 1 from by omega]
        rw [List.take_succ_cons, List.take_zero]
        simp
      · rw [if_neg hlen]
        rw [ih (keyOf (normalizeCoach c) :: seen) (normalizeCoach c :: acc)
          (by simp only [List.length_cons]; omega)]
        rw [show 15 - acc.length = (15 - (acc.length + 1)) + 1 from by omega,
          List.take_succ_cons]
        simp

/-- `normalize_coaches` is first-occurrence dedup capped at 15. -/
theorem normalizeCoaches_eq (cs : List RawCoach) :
    normalizeCoaches cs = (dedupFirst cs []).take 15 := by
  unfold normalizeCoaches
  by_cases h : cs = []
  · subst h
    simp [dedupFirst]
  · rw [if_neg h, normCoachesAux_eq cs [] [] (by simp)]
    simp

/-- The output of `normalize_coaches` never exceeds 15 records. -/
theorem normalizeCoaches_length_le (cs : List RawCoach) :
    (normalizeCoaches cs).length ≤ 15 := by
  rw [normalizeCoaches_eq, List.length_take]
  omega

/-- Every dedup output is the normalization of some input. -/
theorem mem_dedupFirst (cs : List RawCoach) : ∀ (seen : List (Str × Str)) (r : RawCoach),
    r ∈ dedupFirst cs seen → ∃ x ∈ cs, r = normalizeCoach x := by
  induction cs with
  | nil => intro seen r h; cases h
  | cons c rest ih =>
    intro seen r h
    simp only [dedupFirst] at h
    split at h
    · obtain ⟨x, hx, hr⟩ := ih _ r h
      exact ⟨x, by simp [hx], hr⟩
    · rcases List.mem_cons.mp h with h | h
      · exact ⟨c, by simp, h⟩
      · obtain ⟨x, hx, hr⟩ := ih _ r h
        exact ⟨x, by simp [hx], hr⟩

/-- Every record in the output of `normalize_coaches` is the normalization
of some input record. -/
theorem mem_normalizeCoaches (cs : List RawCoach) (r : RawCoach)
    (h : r ∈ normalizeCoaches cs) : ∃ x ∈ cs, r = normalizeCoach x := by
  rw [normalizeCoaches_eq] at h
  exact mem_dedupFirst cs [] r (List.mem_of_mem_take h)

/-- First-occurrence dedup: output keys are distinct, fresh with respect to
`seen`, and each output record is the normalization of the first record of
the full list carrying its key. -/
theorem dedupFirst_spec (l : List RawCoach) :
    ∀ (cs pre : List RawCoach) (seen : List (Str × Str)),
    l = pre ++ cs →
    (∀ m (hm : m < pre.length), keyOf (normalizeCoach (pre.get ⟨m, hm⟩)) ∈ seen) →
    (((dedupFirst cs seen).map keyOf).Nodup ∧
      (∀ r ∈ dedupFirst cs seen, keyOf r ∉ seen) ∧
      (∀ r ∈ dedupFirst cs seen, ∃ j, ∃ hj : j < l.length,
        r = normalizeCoach (l.get ⟨j, hj⟩) ∧
        ∀ m (hm : m < j), keyOf (normalizeCoach (l.get ⟨m, by omega⟩)) ≠ keyOf r)) := by
  intro cs
  induction cs with
  | nil =>
    intro pre seen _ _
    refine ⟨by simp [dedupFirst], ?_, ?_⟩
    · intro r hr; cases hr
    · intro r hr; cases hr
  | cons c rest ih =>
    intro pre seen hl hseen
    simp only [dedupFirst]
    by_cases hk : keyOf (normalizeCoach c) ∈ seen
    · rw [if_pos hk]
      apply ih (pre ++ [c]) seen (by simp [hl])
      intro m hm
      simp only [List.length_append, List.length_cons] at hm
      by_cases hmp : m < pre.length
      · rw [List.get_append m hmp]
        exact hseen m hmp
      · have hme : m = pre.length := by simp at hm; omega
        subst hme
        rw [List.get_of_append (rfl : pre ++ [c] = pre ++ c :: []) rfl]
        exact hk
    · rw [if_neg hk]
      obtain ⟨ihn, ihf, ihj⟩ := ih (pre ++ [c]) (keyOf (normalizeCoach c) :: seen)
        (by simp [hl])
        (by
          intro m hm
          simp only [List.length_append, List.length_cons] at hm
          by_cases hmp : m < pre.length
          · rw [List.get_append m hmp]
            exact List.mem_cons_of_mem _ (hseen m hmp)
          · have hme : m = pre.length := by simp at hm; omega
            subst hme
            rw [List.get_of_append (rfl : pre ++ [c] = pre ++ c :: []) rfl]
            exact List.mem_cons_self _ _)
      refine ⟨?_, ?_, ?_⟩
      · simp only [List.map_cons, List.nodup_cons]
        refine ⟨?_, ihn⟩
        intro hmem
        obtain ⟨r, hr, hkr⟩ := List.mem_map.mp hmem
        exact (ihf r hr) (hkr ▸ List.mem_cons_self _ _)
      · intro r hr
        rcases List.mem_cons.mp hr with hr | hr
        · subst hr
          exact hk
        · intro hrk
          exact (ihf r hr) (List.mem_cons_of_mem _ hrk)
      · intro r hr
        rcases List.mem_cons.mp hr with hr | hr
        · subst hr
          refine ⟨pre.length, by simp [hl], ?_, ?_⟩
          · rw [List.get_of_append hl rfl]
          · intro m hm
            have hmp : m < pre.length := hm
            have hgl : l.get ⟨m, by simp [hl]; omega⟩ = pre.get ⟨m, hmp⟩ := by
              subst hl
              exact List.get_append m hmp
            rw [hgl]
            intro hcontra
            exact hk (hcontra ▸ hseen m hmp)
        · obtain ⟨j, hj, hrj, hfirst⟩ := ihj r hr
          exact ⟨j, hj, hrj, hfirst⟩

/-! ## `ExtractionAgent` validation (src/agents/extraction.py) -/

/-- Match a sequence of literal lower-case word-tokens separated by regex
`\s+` at the head of the string; return the remainder on success.  (The
vocabulary patterns are compiled with `re.IGNORECASE` and searched on the
already lower-cased position, so literal matching is exact.) -/
def matchTokens : List Str → Str → Option Str
  | [], s => some s
  | [w], s => if w.isPrefixOf s then some (s.drop w.length) else none
  | w :: w2 :: ws, s =>
    if w.isPrefixOf s then
      let rest := s.drop w.length
      let gap := rest.takeWhile isSpaceN
      if gap = [] then none else matchTokens (w2 :: ws) (rest.drop gap.length)
    else none

/-- Regex `\b` after a match ending in a word character: the next character
must not be a word character (or the string ends). -/
def boundaryAfter : Str → Bool
  | [] => true
  | d :: _ => !isWordN d

/-- `re.search(r'\b(alt|...)\b', s)` for alternatives made of lower-case
word-tokens: scan left-to-right, tracking whether the previous character is
a word character (for the leading `\b`). -/
def searchWordAlts (alts : List (List Str)) : Bool → Str → Bool
  | _, [] => false
  | prevW, c :: rest =>
    (!prevW && alts.any fun alt =>
      match matchTokens alt (c :: rest) with
      | some rem => boundaryAfter rem
      | none => false) ||
    searchWordAlts alts (isWordN c) rest

/-- `ExtractionAgent.NON_COACH_KEYWORDS`:
`\b(trainer|physician|doctor|nurse|medical|equipment|facility|athletic\s+director|ad|sports\s+information|sports\s+medicine|strength|conditioning|nutritionist)\b`. -/
def nonCoachAlts : List (List Str) :=
  [[codes "trainer"], [codes "physician"], [codes "doctor"], [codes "nurse"],
   [codes "medical"], [codes "equipment"], [codes "facility"],
   [codes "athletic", codes "director"], [codes "ad"],
   [codes "sports", codes "information"], [codes "sports", codes "medicine"],
   [codes "strength"], [codes "conditioning"], [codes "nutritionist"]]

/-- `ExtractionAgent.COACH_KEYWORDS`:
`\b(coach|head\s+coach|assistant|associate|coordinator|director|manager|specialist|analyst|recruiting)\b`. -/
def coachAlts : List (List Str) :=
  [[codes "coach"], [codes "head", codes "coach"], [codes "assistant"],
   [codes "associate"], [codes "coordinator"], [codes "director"],
   [codes "manager"], [codes "specialist"], [codes "analyst"], [codes "recruiting"]]

/-- `pattern.search(s)` as a Boolean (word boundary holds at position 0). -/
def searchVocab (alts : List (List Str)) (s : Str) : Bool :=
  searchWordAlts alts false s

/-- The local-part class `[a-zA-Z0-9._%+-]` of `EMAIL_PATTERN`. -/
def emailLocalChar (c : Nat) : Bool :=
  isAlnumN c || decide (c = 46 ∨ c = 95 ∨ c = 37 ∨ c = 43 ∨ c = 45)

/-- The domain class `[a-zA-Z0-9.-]` of `EMAIL_PATTERN`. -/
def emailDomChar (c : Nat) : Bool := isAlnumN c || decide (c = 46 ∨ c = 45)

/-- The domain part `[a-zA-Z0-9.-]+\.[a-zA-Z]{2,}$` of `EMAIL_PATTERN`: some
dot splits the domain into a non-empty domain-class part and a final run of
at least two letters (the backtracking regex matches iff such a split
exists). -/
def emailDomainOk (d : Str) : Bool :=
  (List.range d.length).any fun i =>
    (d.getD i 0 == 46) && decide (1 ≤ i) && (d.take i).all emailDomChar &&
      ((d.drop (i + 1)).all isAlphaN && decide (2 ≤ (d.drop (i + 1)).length))

/-- `EMAIL_PATTERN.match`: `^[a-zA-Z0-9._%+-]+@<domain>$`.  The local class
excludes `@`, so the greedy run before `@` is the maximal local run. -/
def emailRegexOk (e : Str) : Bool :=
  let loc := e.takeWhile emailLocalChar
  decide (loc ≠ []) &&
    (match e.drop loc.length with
     | 64 :: d => emailDomainOk d
     | _ => false)

/-- `ExtractionAgent._validate_email`: empty is valid; otherwise strip,
lower-case, drop one `mailto:`, and match `EMAIL_PATTERN`. -/
def validateEmail (e : Str) : Bool :=
  if e = [] then true
  else emailRegexOk (dropMailto (lowerStr (pyStrip e)))

/-- `ExtractionAgent._validate_phone`: empty is valid; otherwise strip, drop
one `tel:`/`phone:`/`p:` label, require at least one digit and a full match
of `PHONE_PATTERN` (`^[\d\s()\-+.x]+$`). -/
def validatePhone (p : Str) : Bool :=
  if p = [] then true
  else
    let p1 := dropPhoneLabel (pyStrip p)
    p1.any isDigitN && (decide (p1 ≠ []) && p1.all isPhoneChar)

/-- `ExtractionAgent._validate_coach_data`: require a name and position of
2–100 characters after trimming, no excluded-role vocabulary match, and a
coaching vocabulary match (in that order). -/
def validateCoachData (d : RawCoach) : Bool :=
  let name := pyStrip (dget d.name)
  let position := pyStrip (dget d.position)
  if name = [] ∨ position = [] then false
  else if name.length < 2 ∨ 100 < name.length then false
  else if position.length < 2 ∨ 100 < position.length then false
  else if searchVocab nonCoachAlts (lowerStr position) then false
  else if !searchVocab coachAlts (lowerStr position) then false
  else true

/-- `ExtractionAgent._create_coach_dict`: strip all fields, clear an invalid
email or phone, and always return the record (the `Optional` return type of
the source never carries `None`). -/
def createCoachDict (d : RawCoach) (src : Str) : RawCoach :=
  let name := pyStrip (dget d.name)
  let position := pyStrip (dget d.position)
  let email := pyStrip (dget d.email)
  let phone := pyStrip (dget d.phone)
  let twitter := pyStrip (dget d.twitter)
  let email := if email ≠ [] ∧ validateEmail email = false then [] else email
  let phone := if phone ≠ [] ∧ validatePhone phone = false then [] else phone
  ⟨some name, some position, some email, some phone, some twitter, some src⟩

/-! ## `ExtractionAgent` response parsing -/

/-- Fuelled scanner for `SECTION_SEPARATOR.split(text)` with
`SECTION_SEPARATOR = re.compile(r'---+|\n\n+')`: at each position, a run of
at least three dashes or at least two newlines is a delimiter (greedy),
otherwise the character joins the current piece. -/
def splitSecF : Nat → Str → Str → List Str
  | 0, cur, s => [cur.reverse ++ s]
  | _ + 1, cur, [] => [cur.reverse]
  | f + 1, cur, c :: rest =>
    if (codes "---").isPrefixOf (c :: rest) then
      cur.reverse ::
        splitSecF f [] ((c :: rest).drop ((c :: rest).takeWhile (fun d => d == 45)).length)
    else if (codes "\n\n").isPrefixOf (c :: rest) then
      cur.reverse ::
        splitSecF f [] ((c :: rest).drop ((c :: rest).takeWhile (fun d => d == 10)).length)
    else splitSecF f (c :: cur) rest

/-- `re.split(r'---+|\n\n+', text)`. -/
def splitSections (s : Str) : List Str := splitSecF s.length [] s

/-- The value part `:\s*(.+)$` of `FIELD_PATTERN` (multiline, greedy `\s*`
which may cross a newline; `.` stops at a newline): given the text after the
colon, return group 2 and the remainder after the match, or `none` when no
non-newline character is reachable. -/
def fieldValueAfter (rest : Str) : Option (Str × Str) :=
  let w := rest.takeWhile isSpaceN
  match rest.drop w.length with
  | c :: r2 =>
    let v := (c :: r2).takeWhile (fun d => !(d == 10))
    some (v, (c :: r2).drop v.length)
  | [] =>
    match w.reverse.dropWhile (fun d => d == 10) with
    | [] => none
    | c :: rA => some ([c], rest.drop (rA.length + 1))

/-- The labels of `FIELD_PATTERN`, in alternation order, with field indices
0 = name, 1 = position, 2 = email, 3 = phone, 4 = twitter. -/
def fieldLabels : List (Str × Nat) :=
  [(codes "name", 0), (codes "position", 1), (codes "email", 2),
   (codes "phone", 3), (codes "twitter", 4)]

/-- Try `FIELD_PATTERN` at one position (which must be a line start): a
case-insensitive label, a colon, then the value; alternatives are tried in
order with backtracking. -/
def tryFieldAt (s : Str) : Option (Nat × Str × Str) :=
  fieldLabels.findSome? fun li =>
    if lowerStr (s.take li.1.length) == li.1 then
      match s.drop li.1.length with
      | 58 :: rest =>
        match fieldValueAfter rest with
        | some vr => some (li.2, vr.1, vr.2)
        | none => none
      | _ => none
    else none

/-- Fuelled `FIELD_PATTERN.finditer`: scan positions left to right; `^` with
`re.MULTILINE` holds at position 0 and after a newline; on a match continue
after the match (whose last character is never a newline). -/
def scanFieldsF : Nat → Bool → Str → List (Nat × Str)
  | 0, _, _ => []
  | _ + 1, _, [] => []
  | f + 1, lineStart, c :: rest =>
    if lineStart then
      match tryFieldAt (c :: rest) with
      | some ivr => (ivr.1, ivr.2.1) :: scanFieldsF f false ivr.2.2
      | none => scanFieldsF f (c == 10) rest
    else scanFieldsF f (c == 10) rest

/-- `FIELD_PATTERN.finditer(section)`, as (field index, raw group 2) pairs. -/
def scanFields (s : Str) : List (Nat × Str) := scanFieldsF s.length true s

/-- One `coach_data[...] = field_value` assignment of
`_parse_structured_format` (the value is stripped on assignment). -/
def applyField (d : RawCoach) (fv : Nat × Str) : RawCoach :=
  let v := pyStrip fv.2
  if fv.1 = 0 then { d with name := some v }
  else if fv.1 = 1 then { d with position := some v }
  else if fv.1 = 2 then { d with email := some v }
  else if fv.1 = 3 then { d with phone := some v }
  else { d with twitter := some v }

/-- Fuelled `text.split(sep)` for a one-character separator (keeps empty
pieces, like Python `str.split` with an argument). -/
def splitOnCharF (sep : Nat) : Nat → Str → List Str
  | 0, s => [s]
  | f + 1, s =>
    let a := s.takeWhile (fun d => !(d == sep))
    match s.drop a.length with
    | [] => [a]
    | _ :: rest => a :: splitOnCharF sep f rest

/-- `text.split(sep)` for a one-character separator. -/
def splitOnChar (sep : Nat) (s : Str) : List Str := splitOnCharF sep s.length s

/-- One line of the line-by-line fallback inside `_parse_structured_format`
(evident intended indentation, see the header note): strip the line, split
on the first colon, upper-case the key and assign the stripped value. -/
def colonLineApply (d : RawCoach) (l : Str) : RawCoach :=
  let line := pyStrip l
  if 58 ∈ line then
    let parts0 := line.takeWhile (fun c => !(c == 58))
    let value := pyStrip (line.drop (parts0.length + 1))
    let key := upperStr (pyStrip parts0)
    if key = codes "NAME" then { d with name := some value }
    else if key = codes "POSITION" then { d with position := some value }
    else if key = codes "EMAIL" then { d with email := some value }
    else if key = codes "PHONE" then { d with phone := some value }
    else if key = codes "TWITTER" then { d with twitter := some value }
    else d
  else d

/-- Parse one (already stripped, non-empty) section of
`_parse_structured_format`: regex field extraction, the line-by-line
fallback when no field matched, then validation and record creation. -/
def parseSection (src sec : Str) : Option RawCoach :=
  let d0 := (scanFields sec).foldl applyField emptyRaw
  let d := if d0 = emptyRaw then (splitOnChar 10 sec).foldl colonLineApply d0 else d0
  if validateCoachData d then some (createCoachDict d src) else none

/-- The section loop of `_parse_structured_format`, with the break at 15. -/
def structuredLoop (src : Str) : List Str → List RawCoach → List RawCoach
  | [], acc => acc.reverse
  | sec :: rest, acc =>
    let sec2 := pyStrip sec
    if sec2 = [] then structuredLoop src rest acc
    else
      match parseSection src sec2 with
      | some cdict =>
        if 15 ≤ acc.length + 1 then (cdict :: acc).reverse
        else structuredLoop src rest (cdict :: acc)
      | none => structuredLoop src rest acc

/-- `ExtractionAgent._parse_structured_format`. -/
def parseStructuredFormat (t src : Str) : List RawCoach :=
  structuredLoop src (splitSections t) []

/-- The separator class `[-–—,]` of the loose line pattern. -/
def sepCodes : Str := codes "-–—,"

/-- Try the split of `re.match(r'^(.+?)\s*[-–—,]\s*(.+)$', line)` at the
current point: optional whitespace, a separator, and a non-empty remainder;
group 2 is the remainder after the greedy `\s*` (or, when the remainder is
all whitespace, its last character, which backtracking leaves to `.+`). -/
def looseCheck (rest : Str) : Option Str :=
  let ws := rest.takeWhile isSpaceN
  match rest.drop ws.length with
  | c :: r2 =>
    if c ∈ sepCodes then
      match r2 with
      | [] => none
      | _ :: _ =>
        let q := r2.dropWhile isSpaceN
        some (if q = [] then [r2.getLastD 0] else q)
    else none
  | [] => none

/-- The lazy group 1 of the loose line pattern grows one character at a
time; `pre` holds the reversed name candidate. -/
def looseMatchAux : Str → Str → Option (Str × Str)
  | pre, [] =>
    match looseCheck [] with
    | some g2 => some (pre.reverse, g2)
    | none => none
  | pre, c :: r =>
    match looseCheck (c :: r) with
    | some g2 => some (pre.reverse, g2)
    | none => looseMatchAux (c :: pre) r

/-- `re.match(r'^(.+?)\s*[-–—,]\s*(.+)$', line)`, returning (group 1,
group 2) of the match at the start of the line. -/
def looseMatch : Str → Option (Str × Str)
  | [] => none
  | c :: rest => looseMatchAux [c] rest

/-- A fallback candidate dictionary carrying only name and position. -/
def mkNP (n p : Str) : RawCoach := ⟨some n, some p, none, none, none, none⟩

/-- The line loop of `_parse_fallback_format`.  A blank line flushes a valid
candidate (resetting it only on a successful non-breaking append — the
source resets `current_coach` after the cap check, and not at all when
validation fails); a matching line overwrites the candidate when the
stripped name has more than two characters. -/
def fallbackLoop (src : Str) :
    List Str → Option (Str × Str) → List RawCoach → List RawCoach × Option (Str × Str)
  | [], cur, acc => (acc, cur)
  | l :: rest, cur, acc =>
    let line := pyStrip l
    if line = [] then
      match cur with
      | some np =>
        if validateCoachData (mkNP np.1 np.2) then
          if 15 ≤ acc.length + 1 then (createCoachDict (mkNP np.1 np.2) src :: acc, cur)
          else fallbackLoop src rest none (createCoachDict (mkNP np.1 np.2) src :: acc)
        else fallbackLoop src rest cur acc
      | none => fallbackLoop src rest cur acc
    else
      match looseMatch line with
      | some np =>
        let n := pyStrip np.1
        let p := pyStrip np.2
        if n ≠ [] ∧ 2 < n.length then fallbackLoop src rest (some (n, p)) acc
        else fallbackLoop src rest cur acc
      | none => fallbackLoop src rest cur acc

/-- `ExtractionAgent._parse_fallback_format`: the line loop followed by the
final flush of the remaining candidate (which runs even after a cap break). -/
def parseFallbackFormat (t src : Str) : List RawCoach :=
  let res := fallbackLoop src (splitOnChar 10 t) none []
  let final :=
    match res.2 with
    | some np =>
      if validateCoachData (mkNP np.1 np.2) then
        createCoachDict (mkNP np.1 np.2) src :: res.1
      else res.1
    | none => res.1
  final.reverse

/-- `ExtractionAgent._parse_structured_response`: empty or blank text parses
to nothing; otherwise the structured parse, falling back to the loose
line-pattern parse when it yields no coaches.  (The source has no JSON
parsing stage.) -/
def parseStructuredResponse (t src : Str) : List RawCoach :=
  if t = [] ∨ pyStrip t = [] then []
  else
    let cs := parseStructuredFormat t src
    if cs = [] then parseFallbackFormat t src else cs

/-! ## The JSON fallback described by the specification

The specification (§4.1) interposes a JSON parse between the structured
parse and the loose line-pattern parse.  No such stage exists in the source;
the following definitions are modelled from the specification's words, to be
compared with the parser above. -/

/-- Skip JSON whitespace. -/
def jWS (s : Str) : Str := s.dropWhile isSpaceN

/-- A JSON string without escapes: `"` (34), content, `"`. -/
def jString : Str → Option (Str × Str)
  | 34 :: rest =>
    let v := rest.takeWhile (fun c => !(c == 34))
    (match rest.drop v.length with
     | 34 :: r2 => some (v, r2)
     | _ => none)
  | _ => none

/-- Store a JSON field into a raw field-set when its key is one of the five
coach fields. -/
def jSetField (d : RawCoach) (k v : Str) : RawCoach :=
  if k = codes "name" then { d with name := some v }
  else if k = codes "position" then { d with position := some v }
  else if k = codes "email" then { d with email := some v }
  else if k = codes "phone" then { d with phone := some v }
  else if k = codes "twitter" then { d with twitter := some v }
  else d

/-- Modelled from the spec: the string-valued pairs of one JSON coach
object, after the opening brace; `:` is 58, `,` is 44, the closing brace is
125. -/
def jPairsF : Nat → RawCoach → Str → Option (RawCoach × Str)
  | 0, _, _ => none
  | f + 1, d, s =>
    match jString (jWS s) with
    | some kr =>
      (match jWS kr.2 with
       | 58 :: r2 =>
         (match jString (jWS r2) with
          | some vr =>
            (match jWS vr.2 with
             | 44 :: r4 => jPairsF f (jSetField d kr.1 vr.1) r4
             | 125 :: r5 => some (jSetField d kr.1 vr.1, r5)
             | _ => none)
          | none => none)
       | _ => none)
    | none => none

/-- Modelled from the spec: one JSON coach object (flat, string values);
the opening brace is 123. -/
def jObject (f : Nat) (s : Str) : Option (RawCoach × Str) :=
  match jWS s with
  | 123 :: r1 =>
    (match jWS r1 with
     | 125 :: r2 => some (emptyRaw, r2)
     | _ => jPairsF f emptyRaw r1)
  | _ => none

/-- Modelled from the spec: the elements of a JSON array of coach objects,
after the opening bracket; `]` is 93. -/
def jElemsF : Nat → Str → Option (List RawCoach × Str)
  | 0, _ => none
  | f + 1, s =>
    match jObject f s with
    | some dr =>
      (match jWS dr.2 with
       | 44 :: r2 =>
         (match jElemsF f r2 with
          | some er => some (dr.1 :: er.1, er.2)
          | none => none)
       | 93 :: r3 => some ([dr.1], r3)
       | _ => none)
    | none => none

/-- Modelled from the spec: a top-level JSON array of coach objects; the
opening bracket is 91. -/
def jTopArray (s : Str) : Option (List RawCoach) :=
  match jWS s with
  | 91 :: r1 =>
    (match jWS r1 with
     | 93 :: r2 => if jWS r2 = [] then some [] else none
     | _ =>
       (match jElemsF s.length r1 with
        | some dr => if jWS dr.2 = [] then some dr.1 else none
        | none => none))
  | _ => none

/-- Modelled from the spec: the pairs of a top-level JSON object whose
values are arrays of coach objects. -/
def jObjPairsF : Nat → List (Str × List RawCoach) → Str → Option (List (Str × List RawCoach))
  | 0, _, _ => none
  | f + 1, acc, s =>
    match jString (jWS s) with
    | some kr =>
      (match jWS kr.2 with
       | 58 :: r2 =>
         (match jWS r2 with
          | 91 :: r3 =>
            (match jElemsF f r3 with
             | some dr =>
               (match jWS dr.2 with
                | 44 :: r4 => jObjPairsF f (acc ++ [(kr.1, dr.1)]) r4
                | 125 :: r5 => if jWS r5 = [] then some (acc ++ [(kr.1, dr.1)]) else none
                | _ => none)
             | none => none)
          | _ => none)
       | _ => none)
    | none => none

/-- Modelled from the spec: a top-level JSON object; the list under a
`coaches` key, else a `data` key, else the first array-valued key, is used. -/
def jTopObject (s : Str) : Option (List RawCoach) :=
  match jWS s with
  | 123 :: r1 =>
    (match jObjPairsF s.length [] r1 with
     | some pairs =>
       (match pairs.find? (fun kv => kv.1 = codes "coaches") with
        | some kv => some kv.2
        | none =>
          (match pairs.find? (fun kv => kv.1 = codes "data") with
           | some kv => some kv.2
           | none =>
             (match pairs with
              | kv :: _ => some kv.2
              | [] => none)))
     | none => none)
  | _ => none

/-- Modelled from the spec (§4.1): the JSON-object/array fallback parse —
accept a top-level array, or an object containing a `coaches`/`data` key or
the first array-valued key found; emit only field-sets carrying both a name
and a position, with the source attached. -/
def specJsonFallback (t src : Str) : List RawCoach :=
  let objs :=
    match jTopArray t with
    | some ds => ds
    | none =>
      (match jTopObject t with
       | some ds => ds
       | none => [])
  objs.filterMap fun d =>
    if dget d.name ≠ [] ∧ dget d.position ≠ [] then
      some { d with source_url := some src }
    else none

/-! ## `ExtractionAgent.extract_from_multiple_urls` and the pipeline guard

The per-URL worker `extract_with_semaphore` returns its coaches, returns an
empty list on `ExtractionError` or any other non-authentication exception,
and re-raises `AuthenticationError`.  The coordinating loop consumes worker
results in completion order; an embedded run is therefore parameterized by
the list of worker outcomes in completion order. -/

inductive FetchOutcome where
  /-- The worker returned this list of coaches. -/
  | fetched (coaches : List RawCoach)
  /-- The worker raised `AuthenticationError` (re-raised by the loop). -/
  | authFailed
  /-- The worker swallowed an `ExtractionError` or other exception and
  returned `[]`. -/
  | extractFailed
deriving DecidableEq

/-- The errors the pipeline can raise around the collector. -/
inductive PipeErr where
  /-- `AuthenticationError`: invalid credentials, re-raised to the caller. -/
  | credential
  /-- `main.py` exits when discovery produced no candidate URLs. -/
  | noInput
deriving DecidableEq

/-- The `as_completed` loop of `extract_from_multiple_urls`: accumulate
results, stop early at 10 or more records (cancelling the rest), re-raise
an authentication failure, and truncate to 15 on every normal return. -/
def collectLoop : List FetchOutcome → List RawCoach → Except PipeErr (List RawCoach)
  | [], acc => .ok (acc.take 15)
  | .fetched cs :: rest, acc =>
    if 10 ≤ (acc ++ cs).length then .ok ((acc ++ cs).take 15)
    else collectLoop rest (acc ++ cs)
  | .authFailed :: _, _ => .error .credential
  | .extractFailed :: rest, acc => collectLoop rest acc

/-- `ExtractionAgent.extract_from_multiple_urls`: an empty URL list returns
`[]` immediately; otherwise the completion-order loop runs. -/
def extractFromMultipleUrls (urls : List Str) (outcomes : List FetchOutcome) :
    Except PipeErr (List RawCoach) :=
  if urls = [] then .ok [] else collectLoop outcomes []

/-- The guard of `main.py` (`if not urls: sys.exit(1)`) followed by the
collector: the pipeline raises on total input absence, before extraction. -/
def runPipelineCollect (urls : List Str) (outcomes : List FetchOutcome) :
    Except PipeErr (List RawCoach) :=
  if urls = [] then .error .noInput else extractFromMultipleUrls urls outcomes

/-! ## `VerificationAgent._verify_coach` (src/agents/verification.py) -/

/-- Case-insensitive substring search, the semantics of
`re.search(re.escape(pat), html, re.IGNORECASE)`. -/
def ciContains (pat s : Str) : Bool := decide (lowerStr pat <:+: lowerStr s)

/-- `VerificationAgent._verify_email_in_html`: the email itself, a
`mailto:` form, or a quoted `href` form, anywhere in the page
(case-insensitively; `re.escape` makes the email literal). -/
def verifyEmailInHtml (email html : Str) : Bool :=
  ciContains email html ||
  ciContains (codes "mailto:" ++ email) html ||
  ciContains (codes "href=" ++ [34] ++ codes "mailto:" ++ email ++ [34]) html ||
  ciContains (codes "href=" ++ [39] ++ codes "mailto:" ++ email ++ [39]) html

/-- `VerificationAgent._verify_coach`.  The page fetch is a collaborator:
`fetched` is the (possibly cached) `extract_html` result, `none` for a
failed fetch — and an empty page is falsy in the source, so it is treated
like a failure.  `_verify_twitter_in_html` rests on BeautifulSoup HTML
parsing, an external library, and enters as the collaborator `twitterCheck`
(its result is used verbatim; a falsy result clears the field).  Every
return path carries exactly the keys name, position, email, twitter and
source_url — no phone key. -/
def verifyCoach (fetched : Option Str) (twitterCheck : Str → Str → Str)
    (c : RawCoach) : RawCoach :=
  let src := dget c.source_url
  if src = [] then
    ⟨some (dget c.name), some (dget c.position), some [], none, some [], some src⟩
  else
    match fetched with
    | none =>
      ⟨some (dget c.name), some (dget c.position), some [], none, some [], some src⟩
    | some html =>
      if html = [] then
        ⟨some (dget c.name), some (dget c.position), some [], none, some [], some src⟩
      else
        let email := pyStrip (dget c.email)
        let email := if email ≠ [] ∧ verifyEmailInHtml email html = false then [] else email
        let twitter := pyStrip (dget c.twitter)
        let twitter := if twitter = [] then twitter else twitterCheck twitter html
        ⟨some (dget c.name), some (dget c.position), some email, none, some twitter, some src⟩

/-! ## Supporting lemmas for the claims -/

/-- `_validate_coach_data`, with its let-bindings expanded. -/
theorem validateCoachData_eval (d : RawCoach) :
    validateCoachData d =
      if pyStrip (dget d.name) = [] ∨ pyStrip (dget d.position) = [] then false
      else if (pyStrip (dget d.name)).length < 2 ∨ 100 < (pyStrip (dget d.name)).length then false
      else if (pyStrip (dget d.position)).length < 2 ∨
          100 < (pyStrip (dget d.position)).length then false
      else if searchVocab nonCoachAlts (lowerStr (pyStrip (dget d.position))) then false
      else if !searchVocab coachAlts (lowerStr (pyStrip (dget d.position))) then false
      else true := rfl

/-- `_create_coach_dict`, with its let-bindings expanded. -/
theorem createCoachDict_eval (d : RawCoach) (src : Str) :
    createCoachDict d src =
      ⟨some (pyStrip (dget d.name)), some (pyStrip (dget d.position)),
       some (if pyStrip (dget d.email) ≠ [] ∧ validateEmail (pyStrip (dget d.email)) = false
         then [] else pyStrip (dget d.email)),
       some (if pyStrip (dget d.phone) ≠ [] ∧ validatePhone (pyStrip (dget d.phone)) = false
         then [] else pyStrip (dget d.phone)),
       some (pyStrip (dget d.twitter)), some src⟩ := rfl

/-- Without an authentication failure in the completion order, the collect
loop returns normally. -/
theorem collectLoop_ok (outcomes : List FetchOutcome) :
    ∀ acc, FetchOutcome.authFailed ∉ outcomes →
    ∃ l, collectLoop outcomes acc = .ok l := by
  induction outcomes with
  | nil => intro acc _; exact ⟨acc.take 15, rfl⟩
  | cons o rest ih =>
    intro acc hna
    cases o with
    | fetched cs =>
      simp only [collectLoop]
      split
      · exact ⟨_, rfl⟩
      · exact ih _ (fun hmem => hna (List.mem_cons_of_mem _ hmem))
    | authFailed => exact absurd (List.mem_cons_self _ _) hna
    | extractFailed =>
      simp only [collectLoop]
      exact ih _ (fun hmem => hna (List.mem_cons_of_mem _ hmem))

/-- The collect loop fails only with a credential error. -/
theorem collectLoop_error (outcomes : List FetchOutcome) :
    ∀ acc e, collectLoop outcomes acc = .error e → e = .credential := by
  induction outcomes with
  | nil => intro acc e h; cases h
  | cons o rest ih =>
    intro acc e h
    cases o with
    | fetched cs =>
      simp only [collectLoop] at h
      split at h
      · cases h
      · exact ih _ e h
    | authFailed =>
      simp only [collectLoop] at h
      cases h
      rfl
    | extractFailed =>
      simp only [collectLoop] at h
      exact ih _ e h

/-- Every normal return of the collect loop respects the hard cap of 15. -/
theorem collectLoop_length (outcomes : List FetchOutcome) :
    ∀ acc l, collectLoop outcomes acc = .ok l → l.length ≤ 15 := by
  induction outcomes with
  | nil =>
    intro acc l h
    cases h
    simp
  | cons o rest ih =>
    intro acc l h
    cases o with
    | fetched cs =>
      simp only [collectLoop] at h
      split at h
      · cases h
        simp
      · exact ih _ l h
    | authFailed => cases h
    | extractFailed =>
      simp only [collectLoop] at h
      exact ih _ l h

/-- `_verify_coach` never emits a phone key, and passes name, position and
source through. -/
theorem verifyCoach_eval (fetched : Option Str) (twitterCheck : Str → Str → Str)
    (c : RawCoach) :
    verifyCoach fetched twitterCheck c =
      if dget c.source_url = [] then
        ⟨some (dget c.name), some (dget c.position), some [], none, some [],
         some (dget c.source_url)⟩
      else
        match fetched with
        | none =>
          ⟨some (dget c.name), some (dget c.position), some [], none, some [],
           some (dget c.source_url)⟩
        | some html =>
          if html = [] then
            ⟨some (dget c.name), some (dget c.position), some [], none, some [],
             some (dget c.source_url)⟩
          else
            ⟨some (dget c.name), some (dget c.position),
             some (if pyStrip (dget c.email) ≠ [] ∧
                 verifyEmailInHtml (pyStrip (dget c.email)) html = false then []
               else pyStrip (dget c.email)),
             none,
             some (if pyStrip (dget c.twitter) = [] then pyStrip (dget c.twitter)
               else twitterCheck (pyStrip (dget c.twitter)) html),
             some (dget c.source_url)⟩ := rfl

theorem verifyCoach_fields (fetched : Option Str) (twitterCheck : Str → Str → Str)
    (c : RawCoach) :
    (verifyCoach fetched twitterCheck c).phone = none ∧
    (verifyCoach fetched twitterCheck c).name = some (dget c.name) ∧
    (verifyCoach fetched twitterCheck c).position = some (dget c.position) ∧
    (∃ e, (verifyCoach fetched twitterCheck c).email = some e) ∧
    (∃ t, (verifyCoach fetched twitterCheck c).twitter = some t) ∧
    (verifyCoach fetched twitterCheck c).source_url = some (dget c.source_url) := by
  rw [verifyCoach_eval]
  split
  · exact ⟨rfl, rfl, rfl, ⟨_, rfl⟩, ⟨_, rfl⟩, rfl⟩
  · split
    · exact ⟨rfl, rfl, rfl, ⟨_, rfl⟩, ⟨_, rfl⟩, rfl⟩
    · split
      · exact ⟨rfl, rfl, rfl, ⟨_, rfl⟩, ⟨_, rfl⟩, rfl⟩
      · exact ⟨rfl, rfl, rfl, ⟨_, rfl⟩, ⟨_, rfl⟩, rfl⟩

/-- Normalizing a record with no phone key yields an empty phone string. -/
theorem normalizeCoach_phone_of_none (v : RawCoach) (h : v.phone = none) :
    (normalizeCoach v).phone = some [] := by
  unfold normalizeCoach
  rw [h]
  rfl

/-! # The claims -/

/-- C1 counterexample: the claim says a non-Twitter social link such as
`facebook.com/coachsmith` normalizes to the empty string, and a handle is
accepted only when 3–15 characters long; the code instead extracts
`facebook` from the domain text and emits `https://twitter.com/facebook`,
and the URL branch accepts the 2-character handle `ab`. -/
theorem c1_counterexample :
    normalizeTwitter (codes "facebook.com/coachsmith") ≠ [] ∧
    normalizeTwitter (codes "facebook.com/coachsmith") = codes "https://twitter.com/facebook" ∧
    normalizeTwitter (codes "twitter.com/ab") = codes "https://twitter.com/ab" := by
  decide

/-- C1 (amended): `@Coach_Smith` and `https://x.com/Coach_Smith` both
normalize to `https://twitter.com/coach_smith`; a non-Twitter social link
falls through to the bare-token branch and can yield a profile URL built
from its domain text (`facebook.com/coachsmith` gives
`https://twitter.com/facebook`, not the empty string); the 3–15-character
restriction applies only to the bare-token branch; and every non-empty
output is `https://twitter.com/` followed by a non-empty lower-case run of
handle characters. -/
theorem c1_twitter_normalization :
    normalizeTwitter (codes "@Coach_Smith") = codes "https://twitter.com/coach_smith" ∧
    normalizeTwitter (codes "https://x.com/Coach_Smith") = codes "https://twitter.com/coach_smith" ∧
    normalizeTwitter (codes "facebook.com/coachsmith") = codes "https://twitter.com/facebook" ∧
    normalizeTwitter (codes "twitter.com/ab") = codes "https://twitter.com/ab" ∧
    ∀ t : Str, normalizeTwitter t = [] ∨
      ∃ h, normalizeTwitter t = twitterStem ++ h ∧ h ≠ [] ∧
        (∀ c ∈ h, isWordN c = true) ∧ (∀ c ∈ h, isUpperN c = false) :=
  ⟨by decide, by decide, by decide, by decide, normalizeTwitter_shape⟩

/-- C1 witness: the amended theorem applied at the concrete inputs. -/
theorem c1_twitter_normalization_witness :
    normalizeTwitter (codes "@Coach_Smith") = codes "https://twitter.com/coach_smith" :=
  c1_twitter_normalization.1

/-- C2 counterexample: on the JSON array
`[{"name": "John Doe", "position": "Head Coach"}]` the structured parse
yields zero coaches and the JSON parse described by the specification
succeeds, yet the parser's output is the loose line-pattern parse (whose
first record's name is the junk prefix `[{"name": "John Doe"`), not the
JSON result — so no JSON stage is attempted. -/
theorem c2_counterexample :
    parseStructuredFormat (codes "[\x7b\"name\": \"John Doe\", \"position\": \"Head Coach\"\x7d]")
      (codes "https://example.edu/roster") = [] ∧
    specJsonFallback (codes "[\x7b\"name\": \"John Doe\", \"position\": \"Head Coach\"\x7d]")
      (codes "https://example.edu/roster") ≠ [] ∧
    parseStructuredResponse (codes "[\x7b\"name\": \"John Doe\", \"position\": \"Head Coach\"\x7d]")
      (codes "https://example.edu/roster") ≠
      specJsonFallback (codes "[\x7b\"name\": \"John Doe\", \"position\": \"Head Coach\"\x7d]")
        (codes "https://example.edu/roster") ∧
    parseStructuredResponse (codes "[\x7b\"name\": \"John Doe\", \"position\": \"Head Coach\"\x7d]")
      (codes "https://example.edu/roster") =
      parseFallbackFormat (codes "[\x7b\"name\": \"John Doe\", \"position\": \"Head Coach\"\x7d]")
        (codes "https://example.edu/roster") := by
  decide

/-- C2 (amended): blank text parses to nothing; otherwise, when the
structured parse yields zero coaches the parser falls back directly to the
loose line-pattern parse, and when it yields coaches they are returned —
there is no JSON parsing stage in between. -/
theorem c2_fallback_ordering (t src : Str) :
    ((t = [] ∨ pyStrip t = []) → parseStructuredResponse t src = []) ∧
    (¬(t = [] ∨ pyStrip t = []) →
      (parseStructuredFormat t src = [] →
        parseStructuredResponse t src = parseFallbackFormat t src) ∧
      (parseStructuredFormat t src ≠ [] →
        parseStructuredResponse t src = parseStructuredFormat t src)) := by
  constructor
  · intro hb
    unfold parseStructuredResponse
    rw [if_pos hb]
  · intro hb
    constructor
    · intro hs
      unfold parseStructuredResponse
      rw [if_neg hb, hs, if_pos rfl]
    · intro hs
      unfold parseStructuredResponse
      rw [if_neg hb]
      exact if_neg hs

/-- C2 witness: the amended theorem applied at the JSON-array input. -/
theorem c2_fallback_ordering_witness :
    parseStructuredResponse (codes "[\x7b\"name\": \"John Doe\", \"position\": \"Head Coach\"\x7d]")
      (codes "https://example.edu/roster") =
    parseFallbackFormat (codes "[\x7b\"name\": \"John Doe\", \"position\": \"Head Coach\"\x7d]")
      (codes "https://example.edu/roster") :=
  ((c2_fallback_ordering _ _).2 (by decide)).1 (by decide)

/-- C3: with a non-empty candidate-URL list and no authentication failure
the collector returns a list (possibly empty — never an error for "no
results"); any error it raises is the credential error; the pipeline raises
(only) for total input absence, and the collector itself returns the empty
list on empty input. -/
theorem c3_pipeline_errors (urls : List Str) (outcomes : List FetchOutcome) :
    (urls ≠ [] → FetchOutcome.authFailed ∉ outcomes →
      ∃ l, runPipelineCollect urls outcomes = .ok l) ∧
    (∀ e, extractFromMultipleUrls urls outcomes = .error e → e = .credential) ∧
    (∀ e, runPipelineCollect urls outcomes = .error e →
      e = PipeErr.credential ∨ e = PipeErr.noInput) ∧
    (urls = [] → runPipelineCollect urls outcomes = .error .noInput) ∧
    (urls = [] → extractFromMultipleUrls urls outcomes = .ok []) := by
  refine ⟨?_, ?_, ?_, ?_, ?_⟩
  · intro hu hna
    unfold runPipelineCollect extractFromMultipleUrls
    rw [if_neg hu, if_neg hu]
    exact collectLoop_ok outcomes [] hna
  · intro e he
    unfold extractFromMultipleUrls at he
    split at he
    · cases he
    · exact collectLoop_error outcomes [] e he
  · intro e he
    unfold runPipelineCollect at he
    split at he
    · cases he
      right
      rfl
    · left
      unfold extractFromMultipleUrls at he
      split at he
      · cases he
      · exact collectLoop_error outcomes [] e he
  · intro hu
    unfold runPipelineCollect
    rw [if_pos hu]
  · intro hu
    unfold extractFromMultipleUrls
    rw [if_pos hu]

/-- C3 witness: one successful source yields a normal return. -/
theorem c3_pipeline_errors_witness :
    ∃ l, runPipelineCollect [codes "https://example.edu/roster"]
      [FetchOutcome.fetched []] = .ok l :=
  (c3_pipeline_errors [codes "https://example.edu/roster"] [FetchOutcome.fetched []]).1
    (by decide) (by decide)

/-- C4 counterexample: normalization is not idempotent — an email carrying a
doubled `mailto:` prefix survives the first pass with one `mailto:` left
(the single-shot `re.sub(r'^mailto:', ...)`) and is stripped further by a
second pass, so the record changes. -/
theorem c4_counterexample :
    normalizeCoach (normalizeCoach
      ⟨some (codes "John Smith"), some (codes "Head Coach"),
       some (codes "mailto:MAILTO:jane@school.edu"), some (codes "555-1234"),
       some (codes "@Coach_Smith"), some (codes "https://example.edu/roster")⟩) ≠
    normalizeCoach
      ⟨some (codes "John Smith"), some (codes "Head Coach"),
       some (codes "mailto:MAILTO:jane@school.edu"), some (codes "555-1234"),
       some (codes "@Coach_Smith"), some (codes "https://example.edu/roster")⟩ := by
  decide

/-- C4 (amended): a second normalization pass is the identity on the name,
phone, twitter and source fields unconditionally; on the email field
whenever the once-normalized email retains no `mailto:` prefix and no
surrounding whitespace; and on the position field whenever the
once-normalized position is in collapsed-whitespace normal form with
capitalization-fixed words and is fixed by the qualifier/role collapses and
the abbreviation expansions (a doubled `mailto:` prefix, or an abbreviation
expanded inside a punctuated token such as `x-hc`, breaks idempotence). -/
theorem c4_idempotence (c : RawCoach)
    (he1 : (codes "mailto:").isPrefixOf (normalizeEmail (dget c.email)) = false)
    (he2 : pyStrip (normalizeEmail (dget c.email)) = normalizeEmail (dget c.email))
    (hpNF : isNF (normalizePosition (dget c.position)))
    (hpcap : ∀ w ∈ pyWords (normalizePosition (dget c.position)), pyCapitalize w = w)
    (hp1 : collapseLeadQual (normalizePosition (dget c.position)) =
      normalizePosition (dget c.position))
    (hp2 : collapseTrailRole (normalizePosition (dget c.position)) =
      normalizePosition (dget c.position))
    (hp3 : subWordCI (codes "asst") (codes "Assistant")
      (normalizePosition (dget c.position)) = normalizePosition (dget c.position))
    (hp4 : subWordCI (codes "assoc") (codes "Associate")
      (normalizePosition (dget c.position)) = normalizePosition (dget c.position))
    (hp5 : subWordCI (codes "hc") (codes "Head Coach")
      (normalizePosition (dget c.position)) = normalizePosition (dget c.position)) :
    normalizeCoach (normalizeCoach c) = normalizeCoach c :=
  normalizeCoach_idem_of c he1 he2 hpNF hpcap hp1 hp2 hp3 hp4 hp5

/-- C4 witness: a representative record satisfies every side condition and
is a fixed point of the second pass. -/
theorem c4_idempotence_witness :
    normalizeCoach (normalizeCoach
      ⟨some (codes "JOHN SMITH"), some (codes "assistant  coach"),
       some (codes "MAILTO:Jane@School.EDU"), some (codes "tel:(555) 123-4567 x12"),
       some (codes "@Coach_Smith"), some (codes "https://example.edu/roster")⟩) =
    normalizeCoach
      ⟨some (codes "JOHN SMITH"), some (codes "assistant  coach"),
       some (codes "MAILTO:Jane@School.EDU"), some (codes "tel:(555) 123-4567 x12"),
       some (codes "@Coach_Smith"), some (codes "https://example.edu/roster")⟩ :=
  c4_idempotence _ (by decide) (by decide) (by decide)
    (by decide) (by decide) (by decide) (by decide) (by decide) (by decide)

/-- C5: in the output of `normalize_coaches` no two records share the
(lower-cased name, lower-cased position) key; every output record is the
normalization of the first input record carrying its key (records with a
previously seen key are dropped regardless of contact fields); and the two
Scenario-C records collapse to one. -/
theorem c5_dedup_first_occurrence (l : List RawCoach) :
    ((normalizeCoaches l).map keyOf).Nodup ∧
    (∀ r ∈ normalizeCoaches l, ∃ j, ∃ hj : j < l.length,
      r = normalizeCoach (l.get ⟨j, hj⟩) ∧
      ∀ m (hm : m < j), keyOf (normalizeCoach (l.get ⟨m, by omega⟩)) ≠ keyOf r) ∧
    (normalizeCoaches
      [⟨some (codes "john doe"), some (codes "assistant coach"), none, none, none, none⟩,
       ⟨some (codes "John Doe"), some (codes "Assistant Coach"),
        none, none, none, none⟩]).length = 1 := by
  obtain ⟨hnodup, _, hfirst⟩ :=
    dedupFirst_spec l l [] [] rfl (by intro m hm; cases hm)
  refine ⟨?_, ?_, by decide⟩
  · rw [normalizeCoaches_eq]
    have hsub : List.Sublist (((dedupFirst l []).take 15).map keyOf)
        ((dedupFirst l []).map keyOf) :=
      (List.take_sublist 15 _).map keyOf
    exact hnodup.sublist hsub
  · intro r hr
    rw [normalizeCoaches_eq] at hr
    exact hfirst r (List.mem_of_mem_take hr)

/-- C5 witness: the theorem applied to the Scenario-C list. -/
theorem c5_dedup_first_occurrence_witness :
    (normalizeCoaches
      [⟨some (codes "john doe"), some (codes "assistant coach"), none, none, none, none⟩,
       ⟨some (codes "John Doe"), some (codes "Assistant Coach"),
        none, none, none, none⟩]).length = 1 :=
  (c5_dedup_first_occurrence []).2.2

/-- C6: the list returned by `normalize_coaches` and every normal return of
`extract_from_multiple_urls` have at most 15 records, for inputs of any
size. -/
theorem c6_cap_invariant (cs : List RawCoach) (urls : List Str)
    (outcomes : List FetchOutcome) :
    (normalizeCoaches cs).length ≤ 15 ∧
    (∀ l, extractFromMultipleUrls urls outcomes = .ok l → l.length ≤ 15) := by
  refine ⟨normalizeCoaches_length_le cs, ?_⟩
  intro l h
  unfold extractFromMultipleUrls at h
  split at h
  · cases h
    simp
  · exact collectLoop_length outcomes [] l h

/-- C6 witness: the cap holds on concrete runs. -/
theorem c6_cap_invariant_witness :
    (normalizeCoaches [emptyRaw]).length ≤ 15 ∧ ([] : List RawCoach).length ≤ 15 :=
  ⟨(c6_cap_invariant [emptyRaw] [] []).1,
   (c6_cap_invariant [emptyRaw] [] []).2 [] rfl⟩

/-- C7: a field-set whose stripped position matches the exclusion
vocabulary (as whole words, case-insensitively) is always rejected by
`_validate_coach_data` — even when the coaching vocabulary also matches, as
in `Athletic Trainer and Strength Coach`. -/
theorem c7_role_filter_sound :
    (∀ d : RawCoach,
      searchVocab nonCoachAlts (lowerStr (pyStrip (dget d.position))) = true →
      validateCoachData d = false) ∧
    searchVocab coachAlts
      (lowerStr (pyStrip (codes "Athletic Trainer and Strength Coach"))) = true ∧
    searchVocab nonCoachAlts
      (lowerStr (pyStrip (codes "Athletic Trainer and Strength Coach"))) = true ∧
    validateCoachData
      ⟨some (codes "John Smith"), some (codes "Athletic Trainer and Strength Coach"),
       none, none, none, none⟩ = false := by
  refine ⟨?_, by decide, by decide, by decide⟩
  intro d h
  rw [validateCoachData_eval]
  by_cases h0 : pyStrip (dget d.name) = [] ∨ pyStrip (dget d.position) = []
  · rw [if_pos h0]
  · rw [if_neg h0]
    by_cases h1 : (pyStrip (dget d.name)).length < 2 ∨ 100 < (pyStrip (dget d.name)).length
    · rw [if_pos h1]
    · rw [if_neg h1]
      by_cases h2 : (pyStrip (dget d.position)).length < 2 ∨
          100 < (pyStrip (dget d.position)).length
      · rw [if_pos h2]
      · rw [if_neg h2, if_pos h]

/-- C7 witness: the theorem's universal part applied at the concrete
field-set. -/
theorem c7_role_filter_sound_witness :
    validateCoachData
      ⟨some (codes "Jane Doe"), some (codes "Sports Medicine Coordinator"),
       none, none, none, none⟩ = false :=
  c7_role_filter_sound.1
    ⟨some (codes "Jane Doe"), some (codes "Sports Medicine Coordinator"),
     none, none, none, none⟩ (by decide)

/-- C8: email and phone never decide rejection (`_validate_coach_data`
ignores them); an invalid email or phone is cleared to the empty string by
`_create_coach_dict` while the record — and its name and position — is
retained; and a trimmed name or position shorter than 2 or longer than 100
characters makes `_validate_coach_data` reject the whole record. -/
theorem c8_field_clearing (d : RawCoach) (src : Str) :
    (∀ e, validateCoachData { d with email := e } = validateCoachData d) ∧
    (∀ p, validateCoachData { d with phone := p } = validateCoachData d) ∧
    (pyStrip (dget d.email) ≠ [] → validateEmail (pyStrip (dget d.email)) = false →
      (createCoachDict d src).email = some [] ∧
      (createCoachDict d src).name = some (pyStrip (dget d.name)) ∧
      (createCoachDict d src).position = some (pyStrip (dget d.position))) ∧
    (pyStrip (dget d.phone) ≠ [] → validatePhone (pyStrip (dget d.phone)) = false →
      (createCoachDict d src).phone = some []) ∧
    ((pyStrip (dget d.name)).length < 2 ∨ 100 < (pyStrip (dget d.name)).length →
      validateCoachData d = false) ∧
    ((pyStrip (dget d.position)).length < 2 ∨ 100 < (pyStrip (dget d.position)).length →
      validateCoachData d = false) := by
  refine ⟨fun e => rfl, fun p => rfl, ?_, ?_, ?_, ?_⟩
  · intro hne hbad
    rw [createCoachDict_eval]
    exact ⟨by rw [if_pos ⟨hne, hbad⟩], rfl, rfl⟩
  · intro hne hbad
    rw [createCoachDict_eval]
    show some (if pyStrip (dget d.phone) ≠ [] ∧
        validatePhone (pyStrip (dget d.phone)) = false then []
      else pyStrip (dget d.phone)) = some []
    rw [if_pos ⟨hne, hbad⟩]
  · intro hlen
    rw [validateCoachData_eval]
    by_cases h0 : pyStrip (dget d.name) = [] ∨ pyStrip (dget d.position) = []
    · rw [if_pos h0]
    · rw [if_neg h0, if_pos hlen]
  · intro hlen
    rw [validateCoachData_eval]
    by_cases h0 : pyStrip (dget d.name) = [] ∨ pyStrip (dget d.position) = []
    · rw [if_pos h0]
    · rw [if_neg h0]
      by_cases h1 : (pyStrip (dget d.name)).length < 2 ∨
          100 < (pyStrip (dget d.name)).length
      · rw [if_pos h1]
      · rw [if_neg h1, if_pos hlen]

/-- C8 witness: a record with an invalid email is kept with the email
cleared; a one-character name is rejected outright. -/
theorem c8_field_clearing_witness :
    ((createCoachDict
      ⟨some (codes "Jane Doe"), some (codes "Head Coach"), some (codes "not-an-email"),
       none, none, none⟩ (codes "https://example.edu/roster")).email = some [] ∧
     (createCoachDict
      ⟨some (codes "Jane Doe"), some (codes "Head Coach"), some (codes "not-an-email"),
       none, none, none⟩ (codes "https://example.edu/roster")).name =
        some (codes "Jane Doe")) ∧
    validateCoachData ⟨some (codes "J"), some (codes "Head Coach"),
      none, none, none, none⟩ = false := by
  refine ⟨?_, ?_⟩
  · have h := (c8_field_clearing
      ⟨some (codes "Jane Doe"), some (codes "Head Coach"), some (codes "not-an-email"),
       none, none, none⟩ (codes "https://example.edu/roster")).2.2.1
      (by decide) (by decide)
    exact ⟨h.1, by rw [h.2.1]; decide⟩
  · exact (c8_field_clearing
      ⟨some (codes "J"), some (codes "Head Coach"), none, none, none, none⟩
      (codes "u")).2.2.2.2.1 (by decide)

/-- C10: on every return path `_verify_coach` emits exactly the keys name,
position, email, twitter and source_url — never a phone key — so
`_normalize_coach`, reading `coach.get('phone', '')`, gives every record of
the pipeline's normalization of verification output an empty phone field. -/
theorem c10_no_phone_key (fetched : Option Str) (twitterCheck : Str → Str → Str)
    (c : RawCoach) :
    ((verifyCoach fetched twitterCheck c).phone = none ∧
     (verifyCoach fetched twitterCheck c).name = some (dget c.name) ∧
     (verifyCoach fetched twitterCheck c).position = some (dget c.position) ∧
     (∃ e, (verifyCoach fetched twitterCheck c).email = some e) ∧
     (∃ t, (verifyCoach fetched twitterCheck c).twitter = some t) ∧
     (verifyCoach fetched twitterCheck c).source_url = some (dget c.source_url)) ∧
    (normalizeCoach (verifyCoach fetched twitterCheck c)).phone = some [] ∧
    (∀ (inputs : List RawCoach) (fetchOf : RawCoach → Option Str) (r : RawCoach),
      r ∈ normalizeCoaches (inputs.map fun x => verifyCoach (fetchOf x) twitterCheck x) →
      r.phone = some []) := by
  refine ⟨verifyCoach_fields fetched twitterCheck c, ?_, ?_⟩
  · exact normalizeCoach_phone_of_none _ (verifyCoach_fields fetched twitterCheck c).1
  · intro inputs fetchOf r hr
    obtain ⟨x, hx, hrx⟩ := mem_normalizeCoaches _ r hr
    obtain ⟨y, _, hxy⟩ := List.mem_map.mp hx
    rw [hrx, ← hxy]
    exact normalizeCoach_phone_of_none _ (verifyCoach_fields (fetchOf y) twitterCheck y).1

/-- C10 witness: the theorem applied to a concrete verified record and a
concrete one-record pipeline. -/
theorem c10_no_phone_key_witness :
    (verifyCoach none (fun _ _ => [])
      ⟨some (codes "Jane Doe"), some (codes "Head Coach"), none, none, none,
       some (codes "https://example.edu/roster")⟩).phone = none ∧
    (⟨some (codes "Jane Doe"), some (codes "Head Coach"), some [], some [], some [],
      some (codes "https://example.edu/roster")⟩ : RawCoach).phone = some [] := by
  refine ⟨(c10_no_phone_key none (fun _ _ => []) _).1.1, ?_⟩
  exact (c10_no_phone_key none (fun _ _ => [])
    ⟨some (codes "Jane Doe"), some (codes "Head Coach"), none, none, none,
     some (codes "https://example.edu/roster")⟩).2.2
    [⟨some (codes "Jane Doe"), some (codes "Head Coach"), none, none, none,
      some (codes "https://example.edu/roster")⟩]
    (fun _ => none) _ (by decide)
